import Mathlib

/-!
Verification development for the `winch` repository (src/main.rs), an
automatic Cargo dependency resolver.  The Rust source is shallowly embedded:

* `HashMap<String, Vec<String>>` values are modelled as association lists
  `List (String × List String)` carried in the iteration order of the map;
  the standard library leaves that order unspecified, so theorems that
  depend on it take the order as part of the input.
* a Rust panic (`unwrap` on `None`, index out of bounds) is modelled as
  `none` / a dedicated `panic` error constructor, while a propagated
  `Result` error (`?`) is modelled as an ordinary error value.
* loops are modelled by structural recursion; the one loop without a
  structural measure (the combination counter) takes an explicit fuel
  argument that is proved sufficient.
-/

/-- Constant `MAX_ROLLBACKS` from src/main.rs line 11. -/
def MAX_ROLLBACKS : Nat := 5

/-! ## Combination enumeration (src/main.rs lines 169-200)

`generate_combinations` walks a mixed-radix counter `indices` over the
candidate lists.  `incrIndices` is the inner carry loop (lines 186-195),
`buildCombo` the combination construction (lines 180-183, where
`lists[i][indices[i]]` can panic on an empty list, modelled by `none`),
and `combLoop` the outer `loop` (lines 179-197). -/

/-- The carry-propagation step of the counter: increment the first index;
on overflow reset it to zero and carry into the next position.  Returns the
new index vector and the final carry (0 or 1). -/
def incrIndices : List Nat → List Nat → List Nat × Nat
  | l :: ls, i :: is =>
      if i + 1 ≥ l then
        let r := incrIndices ls is
        (0 :: r.1, r.2)
      else ((i + 1) :: is, 0)
  | _, is => (is, 1)

/-- Build one combination from the current indices:
`combo.insert(key, lists[i][indices[i]])` for every key, in key order.
`none` models the out-of-bounds panic of `lists[i][indices[i]]`. -/
def buildCombo : List String → List (List String) → List Nat → Option (List (String × String))
  | [], _, _ => some []
  | k :: ks, l :: ls, i :: is =>
      match l[i]? with
      | none => none
      | some v =>
          match buildCombo ks ls is with
          | none => none
          | some rest => some ((k, v) :: rest)
  | _ :: _, _, _ => none

/-- The main enumeration loop: emit a combination, advance the counter,
stop when the carry overflows past the last position.  The fuel argument
bounds the number of iterations and is proved sufficient below. -/
def combLoop (ks : List String) (ls : List (List String)) :
    Nat → List Nat → Option (List (List (String × String)))
  | 0, _ => none
  | fuel + 1, indices =>
      match buildCombo ks ls indices with
      | none => none
      | some combo =>
          let r := incrIndices (ls.map List.length) indices
          if r.2 = 1 then some [combo]
          else
            match combLoop ks ls fuel r.1 with
            | none => none
            | some rest => some (combo :: rest)

/-- `generate_combinations` from src/main.rs lines 169-200.  The input
association list carries the key-value pairs of the `HashMap` in its
iteration order; the result is the list of emitted combinations (each an
association list in key order), or `none` if an index access panics. -/
def generate_combinations (candidates_map : List (String × List String)) :
    Option (List (List (String × String))) :=
  let keys := candidates_map.map Prod.fst
  let lists := candidates_map.map Prod.snd
  combLoop keys lists ((lists.map List.length).prod + 1) (List.replicate lists.length 0)

/-! ### Ghost enumeration used in the proofs -/

/-- All index tuples for the given radix vector, first position fastest. -/
def allTuples : List Nat → List (List Nat)
  | [] => [[]]
  | l :: ls => (allTuples ls).flatMap (fun rest => (List.range l).map (fun i => i :: rest))

/-- The index tuples from a given start tuple (inclusive) to the end of the
enumeration, in enumeration order. -/
def suffTuples : List Nat → List Nat → List (List Nat)
  | [], _ => [[]]
  | l :: ls, t =>
      ((List.range' (t.headD 0) (l - t.headD 0)).map (fun i => i :: t.tail)) ++
        ((suffTuples ls t.tail).tail.flatMap (fun rest => (List.range l).map (fun i => i :: rest)))

/-- The combination selected by an index tuple. -/
def pickAll : List String → List (List String) → List Nat → List (String × String)
  | k :: ks, l :: ls, i :: is => (k, l.getD i ("")) :: pickAll ks ls is
  | _, _, _ => []

/-- An index tuple is in range for a radix vector. -/
def ValidIdx (t lens : List Nat) : Prop :=
  List.Forall₂ (fun i l => i < l) t lens

theorem incr_carry_cases (lens t : List Nat) :
    (incrIndices lens t).2 = 0 ∨ (incrIndices lens t).2 = 1 := by
  induction lens generalizing t with
  | nil => right; rfl
  | cons l ls ih =>
      cases t with
      | nil => right; rfl
      | cons i is =>
          by_cases hc : i + 1 ≥ l
          · simpa [incrIndices, hc] using ih is
          · left; simp [incrIndices, hc]

theorem incr_valid (lens t : List Nat) (hv : ValidIdx t lens)
    (h0 : (incrIndices lens t).2 = 0) : ValidIdx (incrIndices lens t).1 lens := by
  induction lens generalizing t with
  | nil => cases hv; simp [incrIndices] at h0
  | cons l ls ih =>
      cases t with
      | nil => exact absurd hv (by intro h; cases h)
      | cons i is =>
          have hil : i < l := (List.forall₂_cons.mp hv).1
          have hvis : ValidIdx is ls := (List.forall₂_cons.mp hv).2
          by_cases hc : i + 1 ≥ l
          · have h0' : (incrIndices ls is).2 = 0 := by
              simpa [incrIndices, hc] using h0
            have := ih is hvis h0'
            simp only [incrIndices, hc, if_pos]
            exact List.forall₂_cons.mpr ⟨by omega, this⟩
          · simp only [incrIndices, hc, if_neg, ite_false]
            exact List.forall₂_cons.mpr ⟨by omega, hvis⟩

theorem suffTuples_head (lens t : List Nat) (hv : ValidIdx t lens) :
    ∃ rest, suffTuples lens t = t :: rest := by
  cases lens with
  | nil => cases hv; exact ⟨[], rfl⟩
  | cons l ls =>
      cases t with
      | nil => exact absurd hv (by intro h; cases h)
      | cons i is =>
          have hil : i < l := (List.forall₂_cons.mp hv).1
          have h1 : l - i = (l - (i + 1)) + 1 := by omega
          refine ⟨(List.range' (i + 1) (l - (i + 1))).map (fun j => j :: is) ++
            ((suffTuples ls is).tail.flatMap (fun rest => (List.range l).map (fun j => j :: rest))), ?_⟩
          simp only [suffTuples, List.headD_cons, List.tail_cons]
          rw [h1, List.range'_succ]
          simp

theorem suffTuples_unfold (lens t : List Nat) (hv : ValidIdx t lens) :
    suffTuples lens t =
      t :: (if (incrIndices lens t).2 = 1 then [] else suffTuples lens (incrIndices lens t).1) := by
  induction lens generalizing t with
  | nil => cases hv; simp [suffTuples, incrIndices]
  | cons l ls ih =>
      cases t with
      | nil => exact absurd hv (by intro h; cases h)
      | cons i is =>
          have hil : i < l := (List.forall₂_cons.mp hv).1
          have hvis : ValidIdx is ls := (List.forall₂_cons.mp hv).2
          by_cases hc : i + 1 ≥ l
          · have hieq : l - i = 1 := by omega
            have hstep : incrIndices (l :: ls) (i :: is) =
                (0 :: (incrIndices ls is).1, (incrIndices ls is).2) := by
              simp [incrIndices, hc]
            have hrec := ih is hvis
            rcases incr_carry_cases ls is with h0 | h1
            · -- carry absorbed deeper in the vector
              have hvalid2 := incr_valid ls is hvis h0
              rcases suffTuples_head ls (incrIndices ls is).1 hvalid2 with ⟨rest2, hh⟩
              have htail : (suffTuples ls is).tail = suffTuples ls (incrIndices ls is).1 := by
                rw [hrec, h0]
                simp
              rw [hstep, h0]
              simp only [Nat.zero_ne_one, reduceIte]
              conv_lhs => rw [suffTuples]
              conv_rhs => rw [suffTuples]
              simp only [List.headD_cons, List.tail_cons, hieq, htail]
              rw [List.range'_one, hh]
              simp [List.range_eq_range', List.flatMap_cons]
            · -- carry propagates out: enumeration ends after this tuple
              have htail : (suffTuples ls is).tail = [] := by
                rw [hrec, h1]
                simp
              rw [hstep, h1]
              simp only [reduceIte]
              rw [suffTuples]
              simp only [List.headD_cons, List.tail_cons, hieq, htail]
              rw [List.range'_one]
              simp
          · have hstep : incrIndices (l :: ls) (i :: is) = ((i + 1) :: is, 0) := by
              simp [incrIndices, hc]
            have h1 : l - i = (l - (i + 1)) + 1 := by omega
            rw [hstep]
            simp only [Nat.zero_ne_one, reduceIte]
            conv_lhs => rw [suffTuples]
            conv_rhs => rw [suffTuples]
            simp only [List.headD_cons, List.tail_cons]
            rw [h1, List.range'_succ]
            simp

theorem buildCombo_sound (ks : List String) (ls : List (List String)) (t : List Nat)
    (hk : ks.length = ls.length) (hv : ValidIdx t (ls.map List.length)) :
    buildCombo ks ls t = some (pickAll ks ls t) := by
  induction ks generalizing ls t with
  | nil => rfl
  | cons k ks ih =>
      cases ls with
      | nil => simp at hk
      | cons l ls2 =>
          cases t with
          | nil => exact absurd hv (by intro h; cases h)
          | cons i is =>
              have hv1 : ValidIdx (i :: is) (l.length :: ls2.map List.length) := by
                simpa using hv
              have hv2 := List.forall₂_cons.mp hv1
              have hil : i < l.length := hv2.1
              have hget : l[i]? = some l[i] := List.getElem?_eq_getElem hil
              have hgetD : l.getD i ("") = l[i] := by
                rw [List.getD_eq_getElem?_getD, hget]
                rfl
              have hrec := ih ls2 is (by simpa using hk) (by simpa [ValidIdx] using hv2.2)
              simp only [buildCombo, hget, hrec, pickAll, hgetD]

theorem combLoop_eq (ks : List String) (ls : List (List String)) (hk : ks.length = ls.length) :
    ∀ fuel t, ValidIdx t (ls.map List.length) →
      (suffTuples (ls.map List.length) t).length ≤ fuel →
      combLoop ks ls fuel t =
        some ((suffTuples (ls.map List.length) t).map (pickAll ks ls)) := by
  intro fuel
  induction fuel with
  | zero =>
      intro t hv hlen
      rcases suffTuples_head _ t hv with ⟨rest, hh⟩
      rw [hh] at hlen
      simp at hlen
  | succ fuel ih =>
      intro t hv hlen
      have hunf := suffTuples_unfold (ls.map List.length) t hv
      rw [combLoop.eq_2, buildCombo_sound ks ls t hk hv]
      rcases incr_carry_cases (ls.map List.length) t with h0 | h1
      · have hvalid2 := incr_valid _ t hv h0
        have hsplit : suffTuples (ls.map List.length) t =
            t :: suffTuples (ls.map List.length) (incrIndices (ls.map List.length) t).1 := by
          rw [hunf, h0]
          simp
        have hlen2 :
            (suffTuples (ls.map List.length) (incrIndices (ls.map List.length) t).1).length ≤ fuel := by
          rw [hsplit] at hlen
          simpa using hlen
        have hrec := ih (incrIndices (ls.map List.length) t).1 hvalid2 hlen2
        simp only [h0, Nat.zero_ne_one, reduceIte, hrec, hsplit, List.map_cons]
      · simp only [h1, reduceIte]
        rw [hunf, h1]
        simp

theorem valid_zeros (lens : List Nat) (hpos : ∀ l ∈ lens, 0 < l) :
    ValidIdx (List.replicate lens.length 0) lens := by
  induction lens with
  | nil => exact List.Forall₂.nil
  | cons l ls ih =>
      simp only [List.length_cons, List.replicate_succ]
      exact List.forall₂_cons.mpr
        ⟨hpos l (by simp), ih (fun x hx => hpos x (by simp [hx]))⟩

theorem suffTuples_zeros (lens : List Nat) (hpos : ∀ l ∈ lens, 0 < l) :
    suffTuples lens (List.replicate lens.length 0) = allTuples lens := by
  induction lens with
  | nil => rfl
  | cons l ls ih =>
      have hpos2 : ∀ x ∈ ls, 0 < x := fun x hx => hpos x (by simp [hx])
      have hzv := valid_zeros ls hpos2
      rcases suffTuples_head ls (List.replicate ls.length 0) hzv with ⟨rest, hh⟩
      have hih := ih hpos2
      simp only [List.length_cons, List.replicate_succ]
      rw [suffTuples]
      simp only [List.headD_cons, List.tail_cons, Nat.sub_zero]
      rw [hih] at hh ⊢
      rw [allTuples, hh]
      simp [List.range_eq_range', List.flatMap_cons]

theorem allTuples_length (lens : List Nat) : (allTuples lens).length = lens.prod := by
  induction lens with
  | nil => rfl
  | cons l ls ih =>
      rw [allTuples, List.length_flatMap]
      have hmap : List.map (List.length ∘ fun rest => (List.range l).map (fun i => i :: rest))
          (allTuples ls) = List.map (fun _ => l) (allTuples ls) :=
        List.map_congr_left (fun a _ => by simp)
      rw [hmap, List.map_const', List.sum_replicate, ih]
      simp [Nat.mul_comm, List.prod_cons]

theorem mem_allTuples (lens t : List Nat) : t ∈ allTuples lens ↔ ValidIdx t lens := by
  induction lens generalizing t with
  | nil =>
      simp only [allTuples, List.mem_singleton, ValidIdx, List.forall₂_nil_right_iff]
  | cons l ls ih =>
      simp only [allTuples, List.mem_flatMap, List.mem_map, List.mem_range]
      constructor
      · rintro ⟨rest, hrest, i, hi, rfl⟩
        exact List.forall₂_cons.mpr ⟨hi, (ih rest).mp hrest⟩
      · intro hv
        cases t with
        | nil => exact absurd hv (by intro h; cases h)
        | cons i is =>
            obtain ⟨hi, his⟩ := List.forall₂_cons.mp hv
            exact ⟨is, (ih is).mpr his, i, hi, rfl⟩

theorem allTuples_nodup (lens : List Nat) : (allTuples lens).Nodup := by
  induction lens with
  | nil => simp [allTuples]
  | cons l ls ih =>
      rw [allTuples, List.nodup_flatMap]
      constructor
      · intro rest _
        exact (List.nodup_range l).map (fun a b h => by injection h)
      · refine ih.imp ?_
        intro a b hab x hxa hxb
        simp only [List.mem_map] at hxa hxb
        obtain ⟨i, _, rfl⟩ := hxa
        obtain ⟨j, _, hj⟩ := hxb
        have h2 : a = b := by
          have hj2 := hj.symm
          simp only [List.cons.injEq] at hj2
          exact hj2.2
        exact hab h2

theorem generate_combinations_eq (m : List (String × List String))
    (h : ∀ p ∈ m, p.2 ≠ []) :
    generate_combinations m =
      some ((allTuples ((m.map Prod.snd).map List.length)).map
        (pickAll (m.map Prod.fst) (m.map Prod.snd))) := by
  have hk : (m.map Prod.fst).length = (m.map Prod.snd).length := by simp
  have hpos : ∀ l ∈ (m.map Prod.snd).map List.length, 0 < l := by
    intro l hl
    simp only [List.map_map, List.mem_map, Function.comp] at hl
    obtain ⟨p, hp, rfl⟩ := hl
    have := h p hp
    cases hq : p.2 with
    | nil => exact absurd hq this
    | cons a as => simp [hq]
  have hzv := valid_zeros _ hpos
  have hlen1 : ((m.map Prod.snd).map List.length).length = (m.map Prod.snd).length := by simp
  have hfuel : (suffTuples ((m.map Prod.snd).map List.length)
      (List.replicate ((m.map Prod.snd).map List.length).length 0)).length ≤
      (((m.map Prod.snd)).map List.length).prod + 1 := by
    rw [suffTuples_zeros _ hpos, allTuples_length]
    omega
  rw [generate_combinations]
  rw [show List.replicate (m.map Prod.snd).length 0 =
      List.replicate ((m.map Prod.snd).map List.length).length 0 by rw [hlen1]]
  rw [combLoop_eq _ _ hk _ _ hzv hfuel, suffTuples_zeros _ hpos]

theorem lens_pos (m : List (String × List String)) (h : ∀ p ∈ m, p.2 ≠ []) :
    ∀ l ∈ (m.map Prod.snd).map List.length, 0 < l := by
  intro l hl
  simp only [List.map_map, List.mem_map, Function.comp] at hl
  obtain ⟨p, hp, rfl⟩ := hl
  have h2 := h p hp
  cases hq : p.2 with
  | nil => exact absurd hq h2
  | cons a as => simp [hq]

theorem pickAll_forall₂ (m : List (String × List String)) (t : List Nat)
    (hv : ValidIdx t ((m.map Prod.snd).map List.length)) :
    List.Forall₂ (fun (kv : String × String) (p : String × List String) =>
      kv.1 = p.1 ∧ kv.2 ∈ p.2) (pickAll (m.map Prod.fst) (m.map Prod.snd) t) m := by
  induction m generalizing t with
  | nil =>
      have ht : t = [] := List.forall₂_nil_right_iff.mp hv
      subst ht
      exact List.Forall₂.nil
  | cons p m ih =>
      cases t with
      | nil => exact absurd hv (by intro h2; cases h2)
      | cons i is =>
          have hv1 : ValidIdx (i :: is) (p.2.length :: (m.map Prod.snd).map List.length) := by
            simpa using hv
          obtain ⟨hi, his⟩ := List.forall₂_cons.mp hv1
          simp only [List.map_cons, pickAll]
          refine List.forall₂_cons.mpr ⟨⟨rfl, ?_⟩, ih is his⟩
          have hg : p.2.getD i ("") = p.2[i] := by
            rw [List.getD_eq_getElem?_getD, List.getElem?_eq_getElem hi]
            rfl
          rw [hg]
          exact List.getElem_mem hi

theorem pickAll_fst (ks : List String) (ls : List (List String)) (t : List Nat)
    (hk : ks.length = ls.length) (hv : ValidIdx t (ls.map List.length)) :
    (pickAll ks ls t).map Prod.fst = ks := by
  induction ks generalizing ls t with
  | nil => rfl
  | cons k ks ih =>
      cases ls with
      | nil => simp at hk
      | cons l ls2 =>
          cases t with
          | nil => exact absurd hv (by intro h2; cases h2)
          | cons i is =>
              have hv1 : ValidIdx (i :: is) (l.length :: ls2.map List.length) := by
                simpa using hv
              obtain ⟨hi, his⟩ := List.forall₂_cons.mp hv1
              simp only [pickAll, List.map_cons]
              rw [ih ls2 is (by simpa using hk) his]

theorem pickAll_inj (ks : List String) (ls : List (List String))
    (hk : ks.length = ls.length) (hnd : ∀ l ∈ ls, l.Nodup) :
    ∀ t t2, ValidIdx t (ls.map List.length) → ValidIdx t2 (ls.map List.length) →
      pickAll ks ls t = pickAll ks ls t2 → t = t2 := by
  induction ks generalizing ls with
  | nil =>
      intro t t2 hv hv2 _
      cases ls with
      | nil =>
          have h1 : t = [] := List.forall₂_nil_right_iff.mp hv
          have h2 : t2 = [] := List.forall₂_nil_right_iff.mp hv2
          rw [h1, h2]
      | cons _ _ => simp at hk
  | cons k ks ih =>
      intro t t2 hv hv2 heq
      cases ls with
      | nil => simp at hk
      | cons l ls2 =>
          cases t with
          | nil => exact absurd hv (by intro h2; cases h2)
          | cons i is =>
              cases t2 with
              | nil => exact absurd hv2 (by intro h2; cases h2)
              | cons j js =>
                  have hv1 : ValidIdx (i :: is) (l.length :: ls2.map List.length) := by
                    simpa using hv
                  have hv21 : ValidIdx (j :: js) (l.length :: ls2.map List.length) := by
                    simpa using hv2
                  obtain ⟨hi, his⟩ := List.forall₂_cons.mp hv1
                  obtain ⟨hj, hjs⟩ := List.forall₂_cons.mp hv21
                  simp only [pickAll, List.cons.injEq, Prod.mk.injEq] at heq
                  obtain ⟨⟨_, hval⟩, hrest⟩ := heq
                  have hgi : l.getD i ("") = l[i] := by
                    rw [List.getD_eq_getElem?_getD, List.getElem?_eq_getElem hi]
                    rfl
                  have hgj : l.getD j ("") = l[j] := by
                    rw [List.getD_eq_getElem?_getD, List.getElem?_eq_getElem hj]
                    rfl
                  rw [hgi, hgj] at hval
                  have hij : i = j := (List.Nodup.getElem_inj_iff (hnd l (by simp))).mp hval
                  subst hij
                  rw [ih ls2 (by simpa using hk) (fun x hx => hnd x (by simp [hx]))
                    is js his hjs hrest]

theorem pickAll_cover (p : String × List String) (v : String) (hv : v ∈ p.2) :
    ∀ (m : List (String × List String)), (∀ q ∈ m, q.2 ≠ []) → p ∈ m →
    ∃ t, ValidIdx t ((m.map Prod.snd).map List.length) ∧
      (p.1, v) ∈ pickAll (m.map Prod.fst) (m.map Prod.snd) t := by
  intro m
  induction m with
  | nil => intro _ hp; cases hp
  | cons q m ih =>
      intro hne hp
      have hnem : ∀ r ∈ m, r.2 ≠ [] := fun r hr => hne r (by simp [hr])
      have hposm := lens_pos m hnem
      rcases List.mem_cons.mp hp with rfl | hp2
      · obtain ⟨i, hi, hvi⟩ := List.mem_iff_getElem.mp hv
        refine ⟨i :: List.replicate ((m.map Prod.snd).map List.length).length 0, ?_, ?_⟩
        · simp only [List.map_cons]
          exact List.forall₂_cons.mpr ⟨hi, valid_zeros _ hposm⟩
        · simp only [List.map_cons, pickAll]
          have hg : p.2.getD i ("") = p.2[i] := by
            rw [List.getD_eq_getElem?_getD, List.getElem?_eq_getElem hi]
            rfl
          rw [hg, hvi]
          exact List.mem_cons_self _ _
      · obtain ⟨t, hvt, hmem⟩ := ih hnem hp2
        have hqpos : 0 < q.2.length := by
          have h2 := hne q (by simp)
          cases hq : q.2 with
          | nil => exact absurd hq h2
          | cons a as => simp [hq]
        refine ⟨0 :: t, ?_, ?_⟩
        · simp only [List.map_cons]
          exact List.forall₂_cons.mpr ⟨hqpos, hvt⟩
        · simp only [List.map_cons, pickAll]
          exact List.mem_cons_of_mem _ hmem

/-! ## Registry JSON and `get_candidate_versions` (src/main.rs lines 148-166) -/

/-- A decoded JSON value (serde_json `Value`); numbers are irrelevant to
the program and carried as integers. -/
inductive Json where
  | null : Json
  | bool : Bool → Json
  | num : Int → Json
  | str : String → Json
  | arr : List Json → Json
  | obj : List (String × Json) → Json

/-- serde_json `Value` string indexing: on an object, the first binding of
the key; `Json.null` when the key is missing or the value is not an
object. -/
def Json.getField : Json → String → Json
  | .obj fields, k =>
      match fields.find? (fun p => p.1 == k) with
      | some p => p.2
      | none => .null
  | _, _ => .null

/-- serde_json `as_array`. -/
def Json.asArray : Json → Option (List Json)
  | .arr xs => some xs
  | _ => none

/-- serde_json `as_str`. -/
def Json.asStr : Json → Option String
  | .str s => some s
  | _ => none

/-- serde_json `as_bool`. -/
def Json.asBool : Json → Option Bool
  | .bool b => some b
  | _ => none

/-- The `filter_map` closure of `get_candidate_versions` (lines 157-161):
keep the `num` string of an entry unless its `yanked` field is the boolean
`true` (`as_bool().unwrap_or(false)`, so a missing or non-boolean `yanked`
counts as not yanked); an entry without a string `num` is skipped by the
`?` inside the closure. -/
def keepVersion (v : Json) : Option String :=
  match (v.getField ("num")).asStr with
  | none => none
  | some vers =>
      let yanked := ((v.getField ("yanked")).asBool).getD false
      if yanked then none else some vers

/-- `get_candidate_versions` (lines 149-166), applied to the decoded JSON
body of the registry response.  Network and JSON-decoding failures happen
earlier and are modelled at the call site; the `unwrap` on
`resp["versions"].as_array()` is a panic, modelled by `none`. -/
def get_candidate_versions (resp : Json) : Option (List String) :=
  match (resp.getField ("versions")).asArray with
  | none => none
  | some versions => some ((versions.filterMap keepVersion).take MAX_ROLLBACKS)

/-! ## Semantic versions (the `semver` crate, used at src/main.rs line 68)

`Version::parse` and `Version::cmp` of the semver crate (v1) are embedded:
parsing validates `major.minor.patch` with optional `-prerelease` and
`+build` parts; comparison is semver precedence with build metadata as the
final tie-breaker, as the crate implements it. -/

/-- ASCII digit test. -/
def isDigitC (c : Char) : Bool := '0' ≤ c && c ≤ '9'

/-- Characters allowed in prerelease and build identifiers. -/
def isIdentC (c : Char) : Bool :=
  isDigitC c || ('a' ≤ c && c ≤ 'z') || ('A' ≤ c && c ≤ 'Z') || c = '-'

/-- Parse a numeric field (major/minor/patch): nonempty digits, no leading
zero, value below 2^64 (u64 overflow is a parse error).  Returns the value
and the remaining input. -/
def parseNumField (s : List Char) : Option (Nat × List Char) :=
  let digits := s.takeWhile isDigitC
  if digits.isEmpty then none
  else if digits.headD ' ' = '0' && digits.length > 1 then none
  else
    let n := digits.foldl (fun acc c => acc * 10 + (c.toNat - 48)) 0
    if n < 2 ^ 64 then some (n, s.drop digits.length) else none

/-- Parse dot-separated identifiers (each a nonempty run of
`[0-9A-Za-z-]`); with `allowLeadZero = false` an all-numeric identifier may
not have a leading zero (prerelease rule; build identifiers allow it).
The fuel is bounded by the input length (each step consumes at least one
character) and is always passed as length + 1. -/
def parseSegs (allowLeadZero : Bool) : Nat → List Char → Option (List String × List Char)
  | 0, _ => none
  | fuel + 1, s =>
      let seg := s.takeWhile isIdentC
      if seg.isEmpty then none
      else if !allowLeadZero && seg.all isDigitC && seg.headD ' ' = '0' && seg.length > 1 then
        none
      else
        match s.drop seg.length with
        | '.' :: rest2 =>
            match parseSegs allowLeadZero fuel rest2 with
            | none => none
            | some (segs, r) => some (String.mk seg :: segs, r)
        | rest2 => some ([String.mk seg], rest2)

/-- A parsed semantic version. -/
structure SemVer where
  major : Nat
  minor : Nat
  patch : Nat
  pre : List String
  build : List String
deriving DecidableEq, Repr

/-- Optional `-prerelease` part. -/
def parseOptPre (r : List Char) : Option (List String × List Char) :=
  match r with
  | '-' :: r2 => parseSegs false (r2.length + 1) r2
  | _ => some ([], r)

/-- Optional `+build` part. -/
def parseOptBuild (r : List Char) : Option (List String × List Char) :=
  match r with
  | '+' :: r2 => parseSegs true (r2.length + 1) r2
  | _ => some ([], r)

/-- `semver::Version::parse`: `major.minor.patch` with optional
`-prerelease` and `+buildmetadata` and nothing trailing. -/
def parseVersion (s : String) : Option SemVer :=
  match parseNumField s.toList with
  | none => none
  | some (maj, r1) =>
      match r1 with
      | '.' :: r2 =>
          match parseNumField r2 with
          | none => none
          | some (mnr, r3) =>
              match r3 with
              | '.' :: r4 =>
                  match parseNumField r4 with
                  | none => none
                  | some (pch, r5) =>
                      match parseOptPre r5 with
                      | none => none
                      | some (pre, r7) =>
                          match parseOptBuild r7 with
                          | none => none
                          | some (bld, r9) =>
                              if r9.isEmpty then some ⟨maj, mnr, pch, pre, bld⟩ else none
              | _ => none
      | _ => none

/-- Three-way comparison on naturals. -/
def cmpNat (a b : Nat) : Ordering :=
  if a < b then .lt else if b < a then .gt else .eq

/-- Element-wise lexicographic list comparison with the shorter prefix
ordering below. -/
def listCmp {α : Type} (C : α → α → Ordering) : List α → List α → Ordering
  | [], [] => .eq
  | [], _ :: _ => .lt
  | _ :: _, [] => .gt
  | a :: as, b :: bs => (C a b).then (listCmp C as bs)

/-- Three-way comparison of single characters (bytes; ASCII here). -/
def charCmp (a b : Char) : Ordering :=
  if a < b then .lt else if b < a then .gt else .eq

/-- Byte-wise lexicographic comparison of identifiers. -/
def cmpCharList : List Char → List Char → Ordering := listCmp charCmp

/-- Prerelease identifier comparison: all-numeric identifiers order below
alphanumeric ones and among themselves numerically (no leading zeros after
parsing, so length then bytes); alphanumeric ones compare by bytes. -/
def cmpPreIdent (a b : String) : Ordering :=
  match a.toList.all isDigitC, b.toList.all isDigitC with
  | true, false => .lt
  | false, true => .gt
  | true, true => (cmpNat a.length b.length).then (cmpCharList a.toList b.toList)
  | false, false => cmpCharList a.toList b.toList

/-- Dot-separated identifier lists: element-wise, a missing element orders
below ("a larger set of fields has a higher precedence"). -/
def cmpIdentList (cmpI : String → String → Ordering) :
    List String → List String → Ordering := listCmp cmpI

/-- Prerelease lists: an empty prerelease (a real release) orders above
any nonempty one. -/
def cmpPre (a b : List String) : Ordering :=
  match a, b with
  | [], [] => .eq
  | [], _ :: _ => .gt
  | _ :: _, [] => .lt
  | _ :: _, _ :: _ => cmpIdentList cmpPreIdent a b

/-- Build-metadata identifier comparison; the crate orders all-numeric
identifiers by their zero-stripped value with total length as tie-breaker,
so that `0 < 00 < 1 < 01 < 001 < 2`. -/
def cmpBuildIdent (a b : String) : Ordering :=
  match a.toList.all isDigitC, b.toList.all isDigitC with
  | true, false => .lt
  | false, true => .gt
  | true, true =>
      ((cmpNat (a.toList.dropWhile (fun c => c = '0')).length
          (b.toList.dropWhile (fun c => c = '0')).length).then
        (cmpCharList (a.toList.dropWhile (fun c => c = '0'))
          (b.toList.dropWhile (fun c => c = '0')))).then
        (cmpNat a.length b.length)
  | false, false => cmpCharList a.toList b.toList

/-- Build-metadata lists: empty build metadata orders below nonempty. -/
def cmpBuild (a b : List String) : Ordering :=
  match a, b with
  | [], [] => .eq
  | [], _ :: _ => .lt
  | _ :: _, [] => .gt
  | _ :: _, _ :: _ => cmpIdentList cmpBuildIdent a b

/-- `semver::Version::cmp`: major, minor, patch, prerelease, build. -/
def cmpSemVer (a b : SemVer) : Ordering :=
  ((((cmpNat a.major b.major).then (cmpNat a.minor b.minor)).then
    (cmpNat a.patch b.patch)).then (cmpPre a.pre b.pre)).then (cmpBuild a.build b.build)

/-- Comparison lifted to parse results; the `none` cases are unreachable on
the guarded (all-parseable) path and chosen to keep the relation total. -/
def cmpOptVer : Option SemVer → Option SemVer → Ordering
  | none, none => .eq
  | none, some _ => .lt
  | some _, none => .gt
  | some a, some b => cmpSemVer a b

/-- The comparator of src/main.rs line 68 read as "a may stay before b":
`Version::parse(b).cmp(&Version::parse(a)) != Greater`. -/
def semverGe (a b : String) : Bool :=
  match cmpOptVer (parseVersion b) (parseVersion a) with
  | .gt => false
  | _ => true

/-- `versions.sort_by(|a, b| Version::parse(b).unwrap().cmp(&Version::parse(a).unwrap()))`
(src/main.rs line 68).  Rust `sort_by` is a stable sort; it calls the
comparator only on lists of length at least two, where every element takes
part in at least one comparison, so an unparseable version string panics
(modelled by `none`) exactly when the list has two or more elements.  On
the all-parseable path the output is the stable sort by the comparator,
modelled by insertion sort (stable, and the comparator never equates
distinct strings, so every sorting algorithm yields the same list). -/
def sortVersionsDesc (vs : List String) : Option (List String) :=
  if vs.all (fun v => (parseVersion v).isSome) then
    some (List.insertionSort (fun a b => semverGe a b = true) vs)
  else if vs.length ≤ 1 then some vs
  else none

/-- The ordering step of the fetch loop (src/main.rs lines 66-71): crates
contained in `missing_crates` get the newest-first reorder, all others keep
the registry order unchanged. -/
def orderCandidates (missing : List String) (crate_name : String) (versions : List String) :
    Option (List String) :=
  if missing.contains crate_name then sortVersionsDesc versions else some versions

/-! ## Diagnostic parsing (src/main.rs lines 130-146)

`Regex::captures_iter` with the three concrete patterns is embedded
directly: each pattern is a literal prefix ending in the opening backtick,
a greedy capture of non-backtick characters, and a literal tail beginning
with the closing backtick.  Matches are found left to right and never
overlap; after a failed match attempt the scan advances one character. -/

/-- Literal-prefix test (first argument is the pattern). -/
def startsWithL : List Char → List Char → Bool
  | [], _ => true
  | _ :: _, [] => false
  | a :: as, b :: bs => a == b && startsWithL as bs

/-- The backtick character, which delimits captured names. -/
def btick : Char := Char.ofNat 96

/-- One attempted match at the current position: the literal `pre`, then a
greedy run of non-backtick characters (the capture), then the literal
`post`.  Returns the capture and the input remaining after the match. -/
def matchAt (pre post s : List Char) : Option (List Char × List Char) :=
  if startsWithL pre s then
    let rest := s.drop pre.length
    let cap := rest.takeWhile (fun c => !(c == btick))
    let rest2 := rest.drop cap.length
    if startsWithL post rest2 then some (cap, rest2.drop post.length) else none
  else none

/-- Scan the input, collecting the captures of successive non-overlapping
matches.  The fuel is always the input length; every step consumes at
least one character (the literals are nonempty), so it never runs out
before the input does. -/
def scanCaptures (pre post : List Char) : Nat → List Char → List String
  | 0, _ => []
  | _ + 1, [] => []
  | fuel + 1, c :: rest =>
      match matchAt pre post (c :: rest) with
      | some r => String.mk r.1 :: scanCaptures pre post fuel r.2
      | none => scanCaptures pre post fuel rest

/-- `parse_conflicts` (src/main.rs lines 131-136): all captures of
the pattern "failed to select a version for" followed by a backquoted
name. -/
def parse_conflicts (stderr : String) : List String :=
  scanCaptures (("failed to select a version for `").toList) (("`").toList)
    stderr.toList.length stderr.toList

/-- `parse_missing_crates` (src/main.rs lines 139-146): captures of the
"cannot find crate for" pattern, then captures of the
"could not find ... in registry" pattern. -/
def parse_missing_crates (stderr : String) : List String :=
  scanCaptures (("can" ++ String.singleton (Char.ofNat 39) ++ "t find crate for `").toList)
      (("`").toList) stderr.toList.length stderr.toList ++
    scanCaptures (("could not find `").toList) (("` in registry").toList)
      stderr.toList.length stderr.toList

/-- `problem_crates` (src/main.rs lines 50-51): the conflict list followed
by the missing list, a plain concatenation with no deduplication. -/
def problemCrates (stderr : String) : List String :=
  parse_conflicts stderr ++ parse_missing_crates stderr

/-! ## The end-to-end run (src/main.rs lines 13-116)

`main` is embedded as a function of a `World` supplying the outcomes of
every external interaction (initial build, registry, file system, trial
builds); side effects are recorded in an event trace.  Help and argument
handling (lines 16-28) only select the working directory and happen before
the embedded run.  `fs::write` itself is modelled as always succeeding;
its error path carries no decidable content (a partial write is not
observable in the source). -/

/-- A manifest document (`toml_edit::Document`): the dependency table the
program mutates, plus the untouched remainder of the file. -/
structure Doc where
  deps : List (String × String)
  rest : String
deriving DecidableEq, Repr

/-- `doc["dependencies"][crate_name] = value(version)`: replace the
binding in place, or append a new one. -/
def setDep (d : Doc) (k v : String) : Doc :=
  if (d.deps.map Prod.fst).contains k then
    { d with deps := d.deps.map (fun p => if p.1 = k then (k, v) else p) }
  else
    { d with deps := d.deps ++ [(k, v)] }

/-- Side effects of one run, in order: a registry fetch, a write of the
disposable trial manifest, a trial build with its result, a write of the
authoritative manifest. -/
inductive Event where
  | fetch : String → Event
  | trialWrite : Doc → Event
  | trialBuild : List (String × String) → Bool → Event
  | authWrite : Doc → List (String × String) → Event
deriving DecidableEq, Repr

/-- A run failure: a propagated error (`?` on a `Result`) or a panic
(`unwrap` / out-of-bounds indexing). -/
inductive RunErr where
  | err : String → RunErr
  | panic : String → RunErr
deriving DecidableEq, Repr

/-- Terminal outcomes of a run that returns `Ok(())`. -/
inductive Outcome where
  | initialOk : Outcome
  | noParseable : Outcome
  | fixed : List (String × String) → Outcome
  | exhausted : Outcome
deriving DecidableEq, Repr

/-- The environment of one run: the initial build result and captured
stderr, the registry responses (decoded JSON or a propagated error), the
manifest read and parse results, and each trial build result by trial
index. -/
structure World where
  initialBuildOk : Bool
  stderr : String
  registry : String → Except String Json
  readToml : Except String String
  parseToml : String → Except String Doc
  trialBuild : Nat → Except String Bool

/-- `HashMap::insert` on the association-list model: replace the binding
in place, or append (the unspecified iteration order of the map is
modelled as first-insertion order). -/
def insertMap (m : List (String × List String)) (k : String) (v : List String) :
    List (String × List String) :=
  if (m.map Prod.fst).contains k then
    m.map (fun p => if p.1 = k then (k, v) else p)
  else m ++ [(k, v)]

/-- One iteration of the fetch loop (src/main.rs lines 63-73): query the
registry (network and decode errors propagate via `?`), extract the
candidates (the `unwrap` on a body without a versions array panics), and
reorder when the crate is in `missing_crates` (an unparseable version
string panics inside the sort comparator). -/
def fetchOne (w : World) (missing : List String) (name : String) :
    Except RunErr (List String) :=
  match w.registry name with
  | .error e => .error (.err e)
  | .ok body =>
      match get_candidate_versions body with
      | none => .error (.panic ("called Option::unwrap on a None value"))
      | some versions =>
          match orderCandidates missing name versions with
          | none => .error (.panic ("Version::parse failed in sort comparator"))
          | some ordered => .ok ordered

/-- The fetch loop (src/main.rs lines 61-73): one `fetch` event per entry
of `problem_crates` (duplicates included), stopping at the first failure;
results accumulate into the candidates map by `insert`. -/
def fetchLoop (w : World) (missing : List String) :
    List String → List (String × List String) →
    List Event × Except RunErr (List (String × List String))
  | [], acc => ([], .ok acc)
  | n :: rest, acc =>
      match fetchOne w missing n with
      | .error e => ([.fetch n], .error e)
      | .ok vs =>
          let r := fetchLoop w missing rest (insertMap acc n vs)
          (.fetch n :: r.1, r.2)

/-- The trial loop (src/main.rs lines 80-112): for each combination,
re-read and re-parse the authoritative manifest, apply the assignment,
write the trial manifest, run the trial build, and on the first success
write the authoritative manifest and stop with `Ok`. -/
def trialLoop (w : World) :
    List (List (String × String)) → Nat → List Event × Except RunErr Outcome
  | [], _ => ([], .ok .exhausted)
  | combo :: rest, i =>
      match w.readToml with
      | .error e => ([], .error (.err e))
      | .ok content =>
          match w.parseToml content with
          | .error e => ([], .error (.err e))
          | .ok doc =>
              let doc2 := combo.foldl (fun d p => setDep d p.1 p.2) doc
              match w.trialBuild i with
              | .error e => ([.trialWrite doc2], .error (.err e))
              | .ok true =>
                  ([.trialWrite doc2, .trialBuild combo true, .authWrite doc2 combo],
                    .ok (.fixed combo))
              | .ok false =>
                  let r := trialLoop w rest (i + 1)
                  (.trialWrite doc2 :: .trialBuild combo false :: r.1, r.2)

/-- The whole run (src/main.rs lines 30-116). -/
def runMain (w : World) : List Event × Except RunErr Outcome :=
  if w.initialBuildOk then ([], .ok .initialOk)
  else
    let missing := parse_missing_crates w.stderr
    let problem := problemCrates w.stderr
    if problem.isEmpty then ([], .ok .noParseable)
    else
      match fetchLoop w missing problem [] with
      | (evs, .error e) => (evs, .error e)
      | (evs, .ok cmap) =>
          match generate_combinations cmap with
          | none => (evs, .error (.panic ("index out of bounds")))
          | some combos =>
              let r := trialLoop w combos 0
              (evs ++ r.1, r.2)

/-! ## Comparator laws

The laws a three-way comparator needs for lexicographic composition and
for sorting: orientation (swap) plus transitivity of the strict and the
equal parts. -/

/-- Lawfulness of a three-way comparator. -/
structure LawfulCmp {α : Type} (C : α → α → Ordering) : Prop where
  swap : ∀ a b, C a b = (C b a).swap
  lt_trans : ∀ {a b c}, C a b = .lt → C b c = .lt → C a c = .lt
  lt_of_lt_eq : ∀ {a b c}, C a b = .lt → C b c = .eq → C a c = .lt
  lt_of_eq_lt : ∀ {a b c}, C a b = .eq → C b c = .lt → C a c = .lt
  eq_trans : ∀ {a b c}, C a b = .eq → C b c = .eq → C a c = .eq

theorem then_lt_iff (o p : Ordering) :
    o.then p = .lt ↔ o = .lt ∨ (o = .eq ∧ p = .lt) := by
  cases o <;> cases p <;> decide

theorem then_eq_iff (o p : Ordering) : o.then p = .eq ↔ o = .eq ∧ p = .eq := by
  cases o <;> cases p <;> decide

theorem LawfulCmp.swap2 {α : Type} {C : α → α → Ordering} (h : LawfulCmp C) (a b : α) :
    C b a = (C a b).swap := by
  rw [h.swap a b, Ordering.swap_swap]

theorem LawfulCmp.ne_gt_of_lt_or_eq {α : Type} {C : α → α → Ordering} {a b : α}
    (h : C a b = .lt ∨ C a b = .eq) : C a b ≠ .gt := by
  rcases h with h | h <;> simp [h]

theorem LawfulCmp.lt_or_eq_of_ne_gt {α : Type} {C : α → α → Ordering} {a b : α}
    (h : C a b ≠ .gt) : C a b = .lt ∨ C a b = .eq := by
  cases hab : C a b
  · exact Or.inl rfl
  · exact Or.inr rfl
  · exact absurd hab h

theorem LawfulCmp.le_trans {α : Type} {C : α → α → Ordering} (h : LawfulCmp C) {a b c : α}
    (h1 : C a b ≠ .gt) (h2 : C b c ≠ .gt) : C a c ≠ .gt := by
  rcases LawfulCmp.lt_or_eq_of_ne_gt h1 with h1 | h1 <;>
    rcases LawfulCmp.lt_or_eq_of_ne_gt h2 with h2 | h2
  · exact LawfulCmp.ne_gt_of_lt_or_eq (Or.inl (h.lt_trans h1 h2))
  · exact LawfulCmp.ne_gt_of_lt_or_eq (Or.inl (h.lt_of_lt_eq h1 h2))
  · exact LawfulCmp.ne_gt_of_lt_or_eq (Or.inl (h.lt_of_eq_lt h1 h2))
  · exact LawfulCmp.ne_gt_of_lt_or_eq (Or.inr (h.eq_trans h1 h2))

theorem LawfulCmp.refl_eq {α : Type} {C : α → α → Ordering} (h : LawfulCmp C) (a : α) :
    C a a = .eq := by
  have hs := h.swap a a
  cases hab : C a a
  · rw [hab] at hs; exact absurd hs (by decide)
  · rfl
  · rw [hab] at hs; exact absurd hs (by decide)

theorem LawfulCmp.comp {α : Type} {C D : α → α → Ordering}
    (hC : LawfulCmp C) (hD : LawfulCmp D) :
    LawfulCmp (fun a b => (C a b).then (D a b)) := by
  constructor
  · intro a b
    rw [hC.swap a b, hD.swap a b]
    cases C b a <;> cases D b a <;> rfl
  · intro a b c h1 h2
    rw [then_lt_iff] at h1 h2 ⊢
    rcases h1 with h1 | ⟨h1, h1d⟩ <;> rcases h2 with h2 | ⟨h2, h2d⟩
    · exact Or.inl (hC.lt_trans h1 h2)
    · exact Or.inl (hC.lt_of_lt_eq h1 h2)
    · exact Or.inl (hC.lt_of_eq_lt h1 h2)
    · exact Or.inr ⟨hC.eq_trans h1 h2, hD.lt_trans h1d h2d⟩
  · intro a b c h1 h2
    rw [then_lt_iff] at h1 ⊢
    rw [then_eq_iff] at h2
    rcases h1 with h1 | ⟨h1, h1d⟩
    · exact Or.inl (hC.lt_of_lt_eq h1 h2.1)
    · exact Or.inr ⟨hC.eq_trans h1 h2.1, hD.lt_of_lt_eq h1d h2.2⟩
  · intro a b c h1 h2
    rw [then_lt_iff] at h2 ⊢
    rw [then_eq_iff] at h1
    rcases h2 with h2 | ⟨h2, h2d⟩
    · exact Or.inl (hC.lt_of_eq_lt h1.1 h2)
    · exact Or.inr ⟨hC.eq_trans h1.1 h2, hD.lt_of_eq_lt h1.2 h2d⟩
  · intro a b c h1 h2
    rw [then_eq_iff] at h1 h2 ⊢
    exact ⟨hC.eq_trans h1.1 h2.1, hD.eq_trans h1.2 h2.2⟩

theorem LawfulCmp.comap {α β : Type} {C : β → β → Ordering} (h : LawfulCmp C) (f : α → β) :
    LawfulCmp (fun a b => C (f a) (f b)) := by
  constructor
  · intro a b; exact h.swap (f a) (f b)
  · intro a b c h1 h2; exact h.lt_trans h1 h2
  · intro a b c h1 h2; exact h.lt_of_lt_eq h1 h2
  · intro a b c h1 h2; exact h.lt_of_eq_lt h1 h2
  · intro a b c h1 h2; exact h.eq_trans h1 h2

theorem cmpNat_lt_iff (a b : Nat) : cmpNat a b = .lt ↔ a < b := by
  unfold cmpNat
  split_ifs with h1 h2 <;> simp <;> omega

theorem cmpNat_eq_iff (a b : Nat) : cmpNat a b = .eq ↔ a = b := by
  unfold cmpNat
  split_ifs with h1 h2 <;> simp <;> omega

theorem lawful_cmpNat : LawfulCmp cmpNat := by
  constructor
  · intro a b
    unfold cmpNat
    split_ifs <;> first | rfl | (exfalso; omega)
  · intro a b c h1 h2
    rw [cmpNat_lt_iff] at h1 h2 ⊢; omega
  · intro a b c h1 h2
    rw [cmpNat_lt_iff] at h1 ⊢; rw [cmpNat_eq_iff] at h2; omega
  · intro a b c h1 h2
    rw [cmpNat_lt_iff] at h2 ⊢; rw [cmpNat_eq_iff] at h1; omega
  · intro a b c h1 h2
    rw [cmpNat_eq_iff] at h1 h2 ⊢; omega

theorem charCmp_lt_iff (a b : Char) : charCmp a b = .lt ↔ a < b := by
  unfold charCmp
  split_ifs with h1 h2
  · exact iff_of_true rfl h1
  · exact iff_of_false (by decide) h1
  · exact iff_of_false (by decide) h1

theorem charCmp_eq_iff (a b : Char) : charCmp a b = .eq ↔ a = b := by
  unfold charCmp
  split_ifs with h1 h2
  · exact iff_of_false (by decide) (ne_of_lt h1)
  · exact iff_of_false (by decide) (ne_of_gt h2)
  · exact iff_of_true rfl (le_antisymm (not_lt.mp h2) (not_lt.mp h1))

theorem lawful_charCmp : LawfulCmp charCmp := by
  constructor
  · intro a b
    unfold charCmp
    split_ifs with h1 h2 h3 <;>
      first
        | rfl
        | (exfalso; exact absurd ‹b < a› (lt_asymm ‹a < b›))
  · intro a b c h1 h2
    rw [charCmp_lt_iff] at h1 h2 ⊢; exact lt_trans h1 h2
  · intro a b c h1 h2
    rw [charCmp_lt_iff] at h1 ⊢; rw [charCmp_eq_iff] at h2; rw [← h2]; exact h1
  · intro a b c h1 h2
    rw [charCmp_lt_iff] at h2 ⊢; rw [charCmp_eq_iff] at h1; rw [h1]; exact h2
  · intro a b c h1 h2
    rw [charCmp_eq_iff] at h1 h2 ⊢; rw [h1, h2]

theorem lawful_listCmp {α : Type} {C : α → α → Ordering} (hC : LawfulCmp C) :
    LawfulCmp (listCmp C) := by
  constructor
  · intro a
    induction a with
    | nil => intro b; cases b <;> rfl
    | cons x xs ih =>
        intro b
        cases b with
        | nil => rfl
        | cons y ys =>
            show (C x y).then (listCmp C xs ys) = ((C y x).then (listCmp C ys xs)).swap
            rw [hC.swap x y, ih ys]
            cases C y x <;> cases listCmp C ys xs <;> rfl
  · intro a
    induction a with
    | nil =>
        intro b c h1 h2
        cases b with
        | nil => cases h1
        | cons y ys =>
            cases c with
            | nil => cases h2
            | cons z zs => rfl
    | cons x xs ih =>
        intro b c h1 h2
        cases b with
        | nil => cases h1
        | cons y ys =>
            cases c with
            | nil => cases h2
            | cons z zs =>
                show (C x z).then (listCmp C xs zs) = .lt
                have h1' : (C x y).then (listCmp C xs ys) = .lt := h1
                have h2' : (C y z).then (listCmp C ys zs) = .lt := h2
                rw [then_lt_iff] at h1' h2' ⊢
                rcases h1' with h1' | ⟨h1', h1d⟩ <;> rcases h2' with h2' | ⟨h2', h2d⟩
                · exact Or.inl (hC.lt_trans h1' h2')
                · exact Or.inl (hC.lt_of_lt_eq h1' h2')
                · exact Or.inl (hC.lt_of_eq_lt h1' h2')
                · exact Or.inr ⟨hC.eq_trans h1' h2', ih h1d h2d⟩
  · intro a
    induction a with
    | nil =>
        intro b c h1 h2
        cases b with
        | nil => cases h1
        | cons y ys =>
            cases c with
            | nil => cases h2
            | cons z zs => rfl
    | cons x xs ih =>
        intro b c h1 h2
        cases b with
        | nil => cases h1
        | cons y ys =>
            cases c with
            | nil => cases h2
            | cons z zs =>
                show (C x z).then (listCmp C xs zs) = .lt
                have h1' : (C x y).then (listCmp C xs ys) = .lt := h1
                have h2' : (C y z).then (listCmp C ys zs) = .eq := h2
                rw [then_lt_iff] at h1' ⊢
                rw [then_eq_iff] at h2'
                rcases h1' with h1' | ⟨h1', h1d⟩
                · exact Or.inl (hC.lt_of_lt_eq h1' h2'.1)
                · exact Or.inr ⟨hC.eq_trans h1' h2'.1, ih h1d h2'.2⟩
  · intro a
    induction a with
    | nil =>
        intro b c h1 h2
        cases b with
        | nil =>
            cases c with
            | nil => cases h2
            | cons z zs => rfl
        | cons y ys => cases h1
    | cons x xs ih =>
        intro b c h1 h2
        cases b with
        | nil => cases h1
        | cons y ys =>
            cases c with
            | nil => cases h2
            | cons z zs =>
                show (C x z).then (listCmp C xs zs) = .lt
                have h1' : (C x y).then (listCmp C xs ys) = .eq := h1
                have h2' : (C y z).then (listCmp C ys zs) = .lt := h2
                rw [then_lt_iff] at h2' ⊢
                rw [then_eq_iff] at h1'
                rcases h2' with h2' | ⟨h2', h2d⟩
                · exact Or.inl (hC.lt_of_eq_lt h1'.1 h2')
                · exact Or.inr ⟨hC.eq_trans h1'.1 h2', ih h1'.2 h2d⟩
  · intro a
    induction a with
    | nil =>
        intro b c h1 h2
        cases b with
        | nil =>
            cases c with
            | nil => rfl
            | cons z zs => cases h2
        | cons y ys => cases h1
    | cons x xs ih =>
        intro b c h1 h2
        cases b with
        | nil => cases h1
        | cons y ys =>
            cases c with
            | nil => cases h2
            | cons z zs =>
                show (C x z).then (listCmp C xs zs) = .eq
                have h1' : (C x y).then (listCmp C xs ys) = .eq := h1
                have h2' : (C y z).then (listCmp C ys zs) = .eq := h2
                rw [then_eq_iff] at h1' h2' ⊢
                exact ⟨hC.eq_trans h1'.1 h2'.1, ih h1'.2 h2'.2⟩

theorem lawful_cmpPreIdent : LawfulCmp cmpPreIdent := by
  have hnum : LawfulCmp (fun a b : String =>
      (cmpNat a.length b.length).then (cmpCharList a.toList b.toList)) :=
    LawfulCmp.comp (lawful_cmpNat.comap String.length)
      ((lawful_listCmp lawful_charCmp).comap String.toList)
  have hlex : LawfulCmp (fun a b : String => cmpCharList a.toList b.toList) :=
    (lawful_listCmp lawful_charCmp).comap String.toList
  constructor
  · intro a b
    cases ha : a.toList.all isDigitC <;> cases hb : b.toList.all isDigitC <;>
      simp only [cmpPreIdent, ha, hb] <;>
      first
        | rfl
        | exact hnum.swap a b
        | exact hlex.swap a b
  · intro a b c h1 h2
    cases ha : a.toList.all isDigitC <;> cases hb : b.toList.all isDigitC <;>
      cases hc2 : c.toList.all isDigitC <;>
      simp only [cmpPreIdent, ha, hb, hc2] at h1 h2 ⊢ <;>
      first
        | rfl
        | exact absurd h1 (by decide)
        | exact absurd h2 (by decide)
        | exact hnum.lt_trans h1 h2
        | exact hlex.lt_trans h1 h2
  · intro a b c h1 h2
    cases ha : a.toList.all isDigitC <;> cases hb : b.toList.all isDigitC <;>
      cases hc2 : c.toList.all isDigitC <;>
      simp only [cmpPreIdent, ha, hb, hc2] at h1 h2 ⊢ <;>
      first
        | rfl
        | exact absurd h1 (by decide)
        | exact absurd h2 (by decide)
        | exact hnum.lt_of_lt_eq h1 h2
        | exact hlex.lt_of_lt_eq h1 h2
  · intro a b c h1 h2
    cases ha : a.toList.all isDigitC <;> cases hb : b.toList.all isDigitC <;>
      cases hc2 : c.toList.all isDigitC <;>
      simp only [cmpPreIdent, ha, hb, hc2] at h1 h2 ⊢ <;>
      first
        | rfl
        | exact absurd h1 (by decide)
        | exact absurd h2 (by decide)
        | exact hnum.lt_of_eq_lt h1 h2
        | exact hlex.lt_of_eq_lt h1 h2
  · intro a b c h1 h2
    cases ha : a.toList.all isDigitC <;> cases hb : b.toList.all isDigitC <;>
      cases hc2 : c.toList.all isDigitC <;>
      simp only [cmpPreIdent, ha, hb, hc2] at h1 h2 ⊢ <;>
      first
        | rfl
        | exact absurd h1 (by decide)
        | exact absurd h2 (by decide)
        | exact hnum.eq_trans h1 h2
        | exact hlex.eq_trans h1 h2

theorem lawful_cmpBuildIdent : LawfulCmp cmpBuildIdent := by
  have hnum : LawfulCmp (fun a b : String =>
      ((cmpNat (a.toList.dropWhile (fun c => c = '0')).length
          (b.toList.dropWhile (fun c => c = '0')).length).then
        (cmpCharList (a.toList.dropWhile (fun c => c = '0'))
          (b.toList.dropWhile (fun c => c = '0')))).then
        (cmpNat a.length b.length)) :=
    LawfulCmp.comp
      (LawfulCmp.comp
        (lawful_cmpNat.comap (fun a : String => (a.toList.dropWhile (fun c => c = '0')).length))
        ((lawful_listCmp lawful_charCmp).comap
          (fun a : String => a.toList.dropWhile (fun c => c = '0'))))
      (lawful_cmpNat.comap String.length)
  have hlex : LawfulCmp (fun a b : String => cmpCharList a.toList b.toList) :=
    (lawful_listCmp lawful_charCmp).comap String.toList
  constructor
  · intro a b
    cases ha : a.toList.all isDigitC <;> cases hb : b.toList.all isDigitC <;>
      simp only [cmpBuildIdent, ha, hb] <;>
      first
        | rfl
        | exact hnum.swap a b
        | exact hlex.swap a b
  · intro a b c h1 h2
    cases ha : a.toList.all isDigitC <;> cases hb : b.toList.all isDigitC <;>
      cases hc2 : c.toList.all isDigitC <;>
      simp only [cmpBuildIdent, ha, hb, hc2] at h1 h2 ⊢ <;>
      first
        | rfl
        | exact absurd h1 (by decide)
        | exact absurd h2 (by decide)
        | exact hnum.lt_trans h1 h2
        | exact hlex.lt_trans h1 h2
  · intro a b c h1 h2
    cases ha : a.toList.all isDigitC <;> cases hb : b.toList.all isDigitC <;>
      cases hc2 : c.toList.all isDigitC <;>
      simp only [cmpBuildIdent, ha, hb, hc2] at h1 h2 ⊢ <;>
      first
        | rfl
        | exact absurd h1 (by decide)
        | exact absurd h2 (by decide)
        | exact hnum.lt_of_lt_eq h1 h2
        | exact hlex.lt_of_lt_eq h1 h2
  · intro a b c h1 h2
    cases ha : a.toList.all isDigitC <;> cases hb : b.toList.all isDigitC <;>
      cases hc2 : c.toList.all isDigitC <;>
      simp only [cmpBuildIdent, ha, hb, hc2] at h1 h2 ⊢ <;>
      first
        | rfl
        | exact absurd h1 (by decide)
        | exact absurd h2 (by decide)
        | exact hnum.lt_of_eq_lt h1 h2
        | exact hlex.lt_of_eq_lt h1 h2
  · intro a b c h1 h2
    cases ha : a.toList.all isDigitC <;> cases hb : b.toList.all isDigitC <;>
      cases hc2 : c.toList.all isDigitC <;>
      simp only [cmpBuildIdent, ha, hb, hc2] at h1 h2 ⊢ <;>
      first
        | rfl
        | exact absurd h1 (by decide)
        | exact absurd h2 (by decide)
        | exact hnum.eq_trans h1 h2
        | exact hlex.eq_trans h1 h2

theorem lawful_cmpPre : LawfulCmp cmpPre := by
  have hid := lawful_listCmp lawful_cmpPreIdent
  constructor
  · intro a b
    cases a <;> cases b <;> simp only [cmpPre] <;>
      first
        | rfl
        | exact hid.swap _ _
  · intro a b c h1 h2
    cases a <;> cases b <;> cases c <;> simp only [cmpPre] at h1 h2 ⊢ <;>
      first
        | rfl
        | exact absurd h1 (by decide)
        | exact absurd h2 (by decide)
        | exact hid.lt_trans h1 h2
  · intro a b c h1 h2
    cases a <;> cases b <;> cases c <;> simp only [cmpPre] at h1 h2 ⊢ <;>
      first
        | rfl
        | exact absurd h1 (by decide)
        | exact absurd h2 (by decide)
        | exact hid.lt_of_lt_eq h1 h2
  · intro a b c h1 h2
    cases a <;> cases b <;> cases c <;> simp only [cmpPre] at h1 h2 ⊢ <;>
      first
        | rfl
        | exact absurd h1 (by decide)
        | exact absurd h2 (by decide)
        | exact hid.lt_of_eq_lt h1 h2
  · intro a b c h1 h2
    cases a <;> cases b <;> cases c <;> simp only [cmpPre] at h1 h2 ⊢ <;>
      first
        | rfl
        | exact absurd h1 (by decide)
        | exact absurd h2 (by decide)
        | exact hid.eq_trans h1 h2

theorem lawful_cmpBuild : LawfulCmp cmpBuild := by
  have hid := lawful_listCmp lawful_cmpBuildIdent
  constructor
  · intro a b
    cases a <;> cases b <;> simp only [cmpBuild] <;>
      first
        | rfl
        | exact hid.swap _ _
  · intro a b c h1 h2
    cases a <;> cases b <;> cases c <;> simp only [cmpBuild] at h1 h2 ⊢ <;>
      first
        | rfl
        | exact absurd h1 (by decide)
        | exact absurd h2 (by decide)
        | exact hid.lt_trans h1 h2
  · intro a b c h1 h2
    cases a <;> cases b <;> cases c <;> simp only [cmpBuild] at h1 h2 ⊢ <;>
      first
        | rfl
        | exact absurd h1 (by decide)
        | exact absurd h2 (by decide)
        | exact hid.lt_of_lt_eq h1 h2
  · intro a b c h1 h2
    cases a <;> cases b <;> cases c <;> simp only [cmpBuild] at h1 h2 ⊢ <;>
      first
        | rfl
        | exact absurd h1 (by decide)
        | exact absurd h2 (by decide)
        | exact hid.lt_of_eq_lt h1 h2
  · intro a b c h1 h2
    cases a <;> cases b <;> cases c <;> simp only [cmpBuild] at h1 h2 ⊢ <;>
      first
        | rfl
        | exact absurd h1 (by decide)
        | exact absurd h2 (by decide)
        | exact hid.eq_trans h1 h2

theorem lawful_cmpSemVer : LawfulCmp cmpSemVer := by
  have h :=
    LawfulCmp.comp
      (LawfulCmp.comp
        (LawfulCmp.comp
          (LawfulCmp.comp (lawful_cmpNat.comap SemVer.major) (lawful_cmpNat.comap SemVer.minor))
          (lawful_cmpNat.comap SemVer.patch))
        (lawful_cmpPre.comap SemVer.pre))
      (lawful_cmpBuild.comap SemVer.build)
  exact h

theorem lawful_cmpOptVer : LawfulCmp cmpOptVer := by
  constructor
  · intro a b
    cases a <;> cases b <;> simp only [cmpOptVer] <;>
      first
        | rfl
        | exact lawful_cmpSemVer.swap _ _
  · intro a b c h1 h2
    cases a <;> cases b <;> cases c <;> simp only [cmpOptVer] at h1 h2 ⊢ <;>
      first
        | rfl
        | exact absurd h1 (by decide)
        | exact absurd h2 (by decide)
        | exact lawful_cmpSemVer.lt_trans h1 h2
  · intro a b c h1 h2
    cases a <;> cases b <;> cases c <;> simp only [cmpOptVer] at h1 h2 ⊢ <;>
      first
        | rfl
        | exact absurd h1 (by decide)
        | exact absurd h2 (by decide)
        | exact lawful_cmpSemVer.lt_of_lt_eq h1 h2
  · intro a b c h1 h2
    cases a <;> cases b <;> cases c <;> simp only [cmpOptVer] at h1 h2 ⊢ <;>
      first
        | rfl
        | exact absurd h1 (by decide)
        | exact absurd h2 (by decide)
        | exact lawful_cmpSemVer.lt_of_eq_lt h1 h2
  · intro a b c h1 h2
    cases a <;> cases b <;> cases c <;> simp only [cmpOptVer] at h1 h2 ⊢ <;>
      first
        | rfl
        | exact absurd h1 (by decide)
        | exact absurd h2 (by decide)
        | exact lawful_cmpSemVer.eq_trans h1 h2

theorem semverGe_eq_true_iff (a b : String) :
    semverGe a b = true ↔ cmpOptVer (parseVersion b) (parseVersion a) ≠ .gt := by
  unfold semverGe
  cases h : cmpOptVer (parseVersion b) (parseVersion a) <;> simp

theorem semverGe_total (a b : String) : semverGe a b = true ∨ semverGe b a = true := by
  rw [semverGe_eq_true_iff, semverGe_eq_true_iff]
  by_cases h : cmpOptVer (parseVersion b) (parseVersion a) = .gt
  · right
    have hs := lawful_cmpOptVer.swap (parseVersion a) (parseVersion b)
    rw [h] at hs
    simp [hs, Ordering.swap]
  · left
    exact h

theorem semverGe_trans (a b c : String) (h1 : semverGe a b = true) (h2 : semverGe b c = true) :
    semverGe a c = true := by
  rw [semverGe_eq_true_iff] at h1 h2 ⊢
  exact lawful_cmpOptVer.le_trans h2 h1

theorem semverGe_refl (a : String) : semverGe a a = true := by
  rw [semverGe_eq_true_iff, lawful_cmpOptVer.refl_eq]
  decide

theorem sortVersionsDesc_spec (vs : List String)
    (hall : vs.all (fun v => (parseVersion v).isSome) = true) :
    sortVersionsDesc vs = some (List.insertionSort (fun a b => semverGe a b = true) vs) ∧
      (List.insertionSort (fun a b => semverGe a b = true) vs).Perm vs ∧
      List.Pairwise (fun a b => semverGe a b = true)
        (List.insertionSort (fun a b => semverGe a b = true) vs) := by
  haveI : IsTotal String (fun a b => semverGe a b = true) := ⟨semverGe_total⟩
  haveI : IsTrans String (fun a b => semverGe a b = true) := ⟨semverGe_trans⟩
  refine ⟨?_, List.perm_insertionSort _ _, List.sorted_insertionSort _ _⟩
  unfold sortVersionsDesc
  rw [if_pos hall]

/-! ## Trace lemmas for the run -/

/-- Number of authoritative-manifest writes in a trace. -/
def countAuthWrites (tr : List Event) : Nat :=
  (tr.filter (fun e => match e with | .authWrite _ _ => true | _ => false)).length

theorem fetchLoop_events (w : World) (missing : List String) :
    ∀ names acc, ∀ e ∈ (fetchLoop w missing names acc).1, ∃ n, e = Event.fetch n := by
  intro names
  induction names with
  | nil =>
      intro acc e he
      simp [fetchLoop] at he
  | cons n rest ih =>
      intro acc e he
      unfold fetchLoop at he
      cases hf : fetchOne w missing n with
      | error err =>
          rw [hf] at he
          simp only [List.mem_singleton] at he
          exact ⟨n, he⟩
      | ok vs =>
          rw [hf] at he
          simp only [List.mem_cons] at he
          rcases he with rfl | he
          · exact ⟨n, rfl⟩
          · exact ih (insertMap acc n vs) e he

theorem countAuth_of_fetches (tr : List Event) (h : ∀ e ∈ tr, ∃ n, e = Event.fetch n) :
    countAuthWrites tr = 0 := by
  unfold countAuthWrites
  rw [List.length_eq_zero, List.filter_eq_nil_iff]
  intro e he
  obtain ⟨n, rfl⟩ := h e he
  simp

theorem countAuth_append (t1 t2 : List Event) :
    countAuthWrites (t1 ++ t2) = countAuthWrites t1 + countAuthWrites t2 := by
  unfold countAuthWrites
  rw [List.filter_append, List.length_append]

theorem trialLoop_spec (w : World) :
    ∀ combos i,
      countAuthWrites (trialLoop w combos i).1 ≤ 1 ∧
      (∀ d c, Event.authWrite d c ∈ (trialLoop w combos i).1 →
        ∃ pre, (trialLoop w combos i).1 =
            pre ++ [.trialWrite d, .trialBuild c true, .authWrite d c] ∧
          (trialLoop w combos i).2 = .ok (.fixed c)) := by
  intro combos
  induction combos with
  | nil =>
      intro i
      refine ⟨by simp [trialLoop, countAuthWrites], ?_⟩
      intro d c h
      simp [trialLoop] at h
  | cons combo rest ih =>
      intro i
      cases hr : w.readToml with
      | error e =>
          have heq : trialLoop w (combo :: rest) i = ([], .error (.err e)) := by
            simp only [trialLoop, hr]
          rw [heq]
          refine ⟨by simp [countAuthWrites], ?_⟩
          intro d c h
          simp at h
      | ok content =>
          cases hp : w.parseToml content with
          | error e =>
              have heq : trialLoop w (combo :: rest) i = ([], .error (.err e)) := by
                simp only [trialLoop, hr, hp]
              rw [heq]
              refine ⟨by simp [countAuthWrites], ?_⟩
              intro d c h
              simp at h
          | ok doc =>
              cases hb : w.trialBuild i with
              | error e =>
                  have heq : trialLoop w (combo :: rest) i =
                      ([.trialWrite (combo.foldl (fun d p => setDep d p.1 p.2) doc)],
                        .error (.err e)) := by
                    simp only [trialLoop, hr, hp, hb]
                  rw [heq]
                  refine ⟨by simp [countAuthWrites], ?_⟩
                  intro d c h
                  simp at h
              | ok bres =>
                  cases bres with
                  | true =>
                      have heq : trialLoop w (combo :: rest) i =
                          ([.trialWrite (combo.foldl (fun d p => setDep d p.1 p.2) doc),
                            .trialBuild combo true,
                            .authWrite (combo.foldl (fun d p => setDep d p.1 p.2) doc) combo],
                            .ok (.fixed combo)) := by
                        simp only [trialLoop, hr, hp, hb]
                      rw [heq]
                      constructor
                      · simp [countAuthWrites]
                      · intro d c h
                        simp only [List.mem_cons, List.mem_singleton] at h
                        rcases h with h | h | h | h
                        · cases h
                        · cases h
                        · injection h with h1 h2
                          refine ⟨[], ?_, ?_⟩
                          · rw [h1, h2]
                            rfl
                          · rw [h2]
                        · cases h
                  | false =>
                      have heq : trialLoop w (combo :: rest) i =
                          (.trialWrite (combo.foldl (fun d p => setDep d p.1 p.2) doc) ::
                            .trialBuild combo false :: (trialLoop w rest (i + 1)).1,
                            (trialLoop w rest (i + 1)).2) := by
                        simp only [trialLoop, hr, hp, hb]
                      rw [heq]
                      obtain ⟨ihc, ihm⟩ := ih (i + 1)
                      constructor
                      · simpa [countAuthWrites] using ihc
                      · intro d c h
                        simp only [List.mem_cons] at h
                        rcases h with h | h | h
                        · cases h
                        · cases h
                        · obtain ⟨pre, hpre, hres⟩ := ihm d c h
                          refine ⟨.trialWrite (combo.foldl (fun d p => setDep d p.1 p.2) doc) ::
                              .trialBuild combo false :: pre, ?_, hres⟩
                          simp [hpre]

theorem buildCombo_none (ks : List String) (ls : List (List String))
    (hk : ks.length = ls.length) (hz : ∃ l ∈ ls, l = []) (t : List Nat)
    (ht : t.length = ls.length) : buildCombo ks ls t = none := by
  induction ks generalizing ls t with
  | nil =>
      cases ls with
      | nil =>
          obtain ⟨l, hl, _⟩ := hz
          cases hl
      | cons _ _ => simp at hk
  | cons k ks ih =>
      cases ls with
      | nil => simp at hk
      | cons l ls2 =>
          cases t with
          | nil => simp at ht
          | cons i is =>
              by_cases hl0 : l = []
              · subst hl0
                simp [buildCombo]
              · have hz2 : ∃ l2 ∈ ls2, l2 = [] := by
                  obtain ⟨l2, hl2, he⟩ := hz
                  rcases List.mem_cons.mp hl2 with rfl | h2
                  · exact absurd he hl0
                  · exact ⟨l2, h2, he⟩
                have hrec := ih ls2 (by simpa using hk) hz2 is (by simpa using ht)
                cases hgi : l[i]? <;> simp [buildCombo, hgi, hrec]

theorem generate_combinations_none (m : List (String × List String))
    (hz : ∃ p ∈ m, p.2 = []) : generate_combinations m = none := by
  have hz2 : ∃ l ∈ m.map Prod.snd, l = [] := by
    obtain ⟨p, hp, he⟩ := hz
    exact ⟨p.2, List.mem_map_of_mem Prod.snd hp, he⟩
  have hb := buildCombo_none (m.map Prod.fst) (m.map Prod.snd) (by simp) hz2
    (List.replicate (m.map Prod.snd).length 0) (by simp)
  unfold generate_combinations
  rw [combLoop.eq_2, hb]

theorem keepVersion_eq_some_iff (v : Json) (s : String) :
    keepVersion v = some s ↔
      (v.getField ("num")).asStr = some s ∧ v.getField ("yanked") ≠ Json.bool true := by
  unfold keepVersion
  cases hn : (v.getField ("num")).asStr with
  | none => simp
  | some t =>
      cases hy : v.getField ("yanked") with
      | bool b => cases b <;> simp [Json.asBool]
      | null => simp [Json.asBool]
      | num n => simp [Json.asBool]
      | str s2 => simp [Json.asBool]
      | arr xs => simp [Json.asBool]
      | obj fs => simp [Json.asBool]

/-! ## Claim theorems -/

/-- Lookup in a combination (HashMap get by package name). -/
def assocLookup (c : List (String × String)) (k : String) : Option String :=
  match c.find? (fun p => p.1 == k) with
  | some p => some p.2
  | none => none

/-- C1 counterexample: on the candidate mapping {p ↦ ["a", "a"]} — every
candidate list non-empty — the function emits two combinations and both
are the same full assignment {p ↦ "a"}: an assignment appears twice, so
the claimed "each full assignment appearing exactly once" fails when a
candidate list contains a duplicate version. -/
theorem C1_counterexample_duplicate_assignment :
    generate_combinations [(("p"), ["a", "a"])] =
      some [[(("p"), ("a"))], [(("p"), ("a"))]] ∧
    ¬ ([[(("p"), ("a"))], [(("p"), ("a"))]] : List (List (String × String))).Nodup := by
  exact ⟨rfl, by decide⟩

/-- C1 (amended): for every candidate mapping (an association list in map
iteration order) in which each candidate list is non-empty,
`generate_combinations` returns exactly the product of the per-package
list lengths many combinations; every combination pairs the package names,
in map order, with a version from the corresponding candidate list (no
invented values), every (package, version) pair of the mapping occurs in
some combination (no omission), and — provided each candidate list is
additionally duplicate-free — no full assignment appears twice. -/
theorem C1_product_enumeration (m : List (String × List String))
    (hne : ∀ p ∈ m, p.2 ≠ []) :
    ∃ cs, generate_combinations m = some cs ∧
      cs.length = (m.map (fun p => p.2.length)).prod ∧
      (∀ c ∈ cs, List.Forall₂
        (fun (kv : String × String) (p : String × List String) =>
          kv.1 = p.1 ∧ kv.2 ∈ p.2) c m) ∧
      (∀ p ∈ m, ∀ v ∈ p.2, ∃ c ∈ cs, (p.1, v) ∈ c) ∧
      ((∀ p ∈ m, p.2.Nodup) → cs.Nodup) := by
  refine ⟨_, generate_combinations_eq m hne, ?_, ?_, ?_, ?_⟩
  · rw [List.length_map, allTuples_length]
    simp only [List.map_map]
    rfl
  · intro c hc
    obtain ⟨t, ht, rfl⟩ := List.mem_map.mp hc
    exact pickAll_forall₂ m t ((mem_allTuples _ t).mp ht)
  · intro p hp v hv
    obtain ⟨t, hvt, hmem⟩ := pickAll_cover p v hv m hne hp
    exact ⟨pickAll (m.map Prod.fst) (m.map Prod.snd) t,
      List.mem_map_of_mem _ ((mem_allTuples _ t).mpr hvt), hmem⟩
  · intro hnd
    refine List.Nodup.map_on ?_ (allTuples_nodup _)
    intro t ht t2 ht2 heq
    exact pickAll_inj (m.map Prod.fst) (m.map Prod.snd) (by simp)
      (fun l hl => by
        obtain ⟨p, hp, rfl⟩ := List.mem_map.mp hl
        exact hnd p hp)
      t t2 ((mem_allTuples _ t).mp ht) ((mem_allTuples _ t2).mp ht2) heq

/-- C1 witness: a concrete two-package mapping satisfying the hypotheses,
with the amended theorem applied to it. -/
theorem C1_product_enumeration_witness :
    ∃ cs, generate_combinations [(("a"), ["1", "2"]), (("b"), ["9"])] = some cs ∧
      cs.length = ([(("a"), ["1", "2"]), (("b"), ["9"])].map (fun p => p.2.length)).prod ∧
      (∀ c ∈ cs, List.Forall₂
        (fun (kv : String × String) (p : String × List String) =>
          kv.1 = p.1 ∧ kv.2 ∈ p.2) c [(("a"), ["1", "2"]), (("b"), ["9"])]) ∧
      (∀ p ∈ [(("a"), ["1", "2"]), (("b"), ["9"])], ∀ v ∈ p.2, ∃ c ∈ cs, (p.1, v) ∈ c) ∧
      ((∀ p ∈ [(("a"), ["1", "2"]), (("b"), ["9"])], p.2.Nodup) → cs.Nodup) :=
  C1_product_enumeration [(("a"), ["1", "2"]), (("b"), ["9"])] (by decide)

/-- C9: under the precondition that every candidate list is non-empty,
every index access `lists[i][indices[i]]` is in bounds and the function
returns normally; if some candidate list is empty, the very first
combination build indexes out of bounds (the panic branch, modelled as
`none`). -/
theorem C9_index_safety (m : List (String × List String)) :
    ((∀ p ∈ m, p.2 ≠ []) → ∃ cs, generate_combinations m = some cs) ∧
    ((∃ p ∈ m, p.2 = []) → generate_combinations m = none) := by
  constructor
  · intro hne
    exact ⟨_, generate_combinations_eq m hne⟩
  · intro hz
    exact generate_combinations_none m hz

/-- C9 witness: the theorem applied to a mapping with non-empty lists (the
function returns a value) and to one with an empty list (the indexing
panics). -/
theorem C9_index_safety_witness :
    (∃ cs, generate_combinations [(("a"), ["1"])] = some cs) ∧
    generate_combinations [(("a"), ["1"]), (("b"), [])] = none :=
  ⟨(C9_index_safety [(("a"), ["1"])]).1 (by decide),
   (C9_index_safety [(("a"), ["1"]), (("b"), [])]).2 (by decide)⟩

/-- C4 counterexample: two association lists equal as maps — one the
reverse of the other, as one and the same HashMap may present its entries
in two different runs — produce different combination sequences: already
the second emitted combination assigns different versions to package "a".
The code applies no sort to the keys, so enumeration order follows the
unspecified map iteration order, not a stable sort of the package
names. -/
theorem C4_counterexample_order_dependence :
    ([(("b"), ["1", "2"]), (("a"), ["1", "2"])] : List (String × List String)) =
      ([(("a"), ["1", "2"]), (("b"), ["1", "2"])] : List (String × List String)).reverse ∧
    (generate_combinations [(("a"), ["1", "2"]), (("b"), ["1", "2"])]).map
        (fun cs => cs.map (fun c => assocLookup c ("a"))) ≠
      (generate_combinations [(("b"), ["1", "2"]), (("a"), ["1", "2"])]).map
        (fun cs => cs.map (fun c => assocLookup c ("a"))) := by
  exact ⟨rfl, by decide⟩

/-- C4 (amended): enumeration is deterministic only relative to the map
iteration order: `generate_combinations` is a pure function of the ordered
association list, and the package order used for indexing and combination
construction is exactly the map iteration order (no sort is applied), so
the emitted sequence is determined by — and varies with — the unspecified
HashMap iteration order rather than a sorted package order. -/
theorem C4_enumeration_order (m : List (String × List String))
    (hne : ∀ p ∈ m, p.2 ≠ []) :
    ∃ cs, generate_combinations m = some cs ∧
      ∀ c ∈ cs, c.map Prod.fst = m.map Prod.fst := by
  refine ⟨_, generate_combinations_eq m hne, ?_⟩
  intro c hc
  obtain ⟨t, ht, rfl⟩ := List.mem_map.mp hc
  exact pickAll_fst (m.map Prod.fst) (m.map Prod.snd) t (by simp)
    ((mem_allTuples _ t).mp ht)

/-- C4 witness: the amended theorem applied to a concrete mapping. -/
theorem C4_enumeration_order_witness :
    ∃ cs, generate_combinations [(("a"), ["1", "2"]), (("b"), ["1", "2"])] = some cs ∧
      ∀ c ∈ cs, c.map Prod.fst =
        ([(("a"), ["1", "2"]), (("b"), ["1", "2"])] : List (String × List String)).map Prod.fst :=
  C4_enumeration_order [(("a"), ["1", "2"]), (("b"), ["1", "2"])] (by decide)

/-- C6: for every registry response on which `get_candidate_versions`
returns (rather than panics), the result has at most 5 (MAX_ROLLBACKS)
version strings, and every returned string is the `num` field of some
entry of the versions array whose `yanked` field is not the boolean
`true`. -/
theorem C6_cap_and_no_yanked (resp : Json) (out : List String)
    (h : get_candidate_versions resp = some out) :
    out.length ≤ MAX_ROLLBACKS ∧
    ∃ arr, (resp.getField ("versions")).asArray = some arr ∧
      ∀ s ∈ out, ∃ v ∈ arr, (v.getField ("num")).asStr = some s ∧
        v.getField ("yanked") ≠ Json.bool true := by
  unfold get_candidate_versions at h
  cases harr : (resp.getField ("versions")).asArray with
  | none => rw [harr] at h; cases h
  | some arr =>
      rw [harr] at h
      injection h with h
      subst h
      constructor
      · rw [List.length_take]
        exact min_le_left _ _
      · refine ⟨arr, rfl, ?_⟩
        intro s hs
        have hs2 := List.mem_of_mem_take hs
        obtain ⟨v, hv, hks⟩ := List.mem_filterMap.mp hs2
        obtain ⟨hnum, hyank⟩ := (keepVersion_eq_some_iff v s).mp hks
        exact ⟨v, hv, hnum, hyank⟩

/-- C6 witness: a response with seven valid entries, one yanked entry and
one entry without a string num field; the theorem applied to it (the
concrete output is the first five survivors). -/
theorem C6_cap_and_no_yanked_witness :
    (get_candidate_versions (Json.obj [(("versions"), Json.arr
      [Json.obj [(("num"), Json.str ("1.7.0"))],
       Json.obj [(("num"), Json.str ("1.6.0")), (("yanked"), Json.bool true)],
       Json.obj [(("num"), Json.num 3)],
       Json.obj [(("num"), Json.str ("1.5.0"))],
       Json.obj [(("num"), Json.str ("1.4.0"))],
       Json.obj [(("num"), Json.str ("1.3.0"))],
       Json.obj [(("num"), Json.str ("1.2.0"))],
       Json.obj [(("num"), Json.str ("1.1.0"))],
       Json.obj [(("num"), Json.str ("1.0.0"))]])]) =
      some ["1.7.0", "1.5.0", "1.4.0", "1.3.0", "1.2.0"]) ∧
    (["1.7.0", "1.5.0", "1.4.0", "1.3.0", "1.2.0"] : List String).length ≤ MAX_ROLLBACKS ∧
    ∃ arr, ((Json.obj [(("versions"), Json.arr
      [Json.obj [(("num"), Json.str ("1.7.0"))],
       Json.obj [(("num"), Json.str ("1.6.0")), (("yanked"), Json.bool true)],
       Json.obj [(("num"), Json.num 3)],
       Json.obj [(("num"), Json.str ("1.5.0"))],
       Json.obj [(("num"), Json.str ("1.4.0"))],
       Json.obj [(("num"), Json.str ("1.3.0"))],
       Json.obj [(("num"), Json.str ("1.2.0"))],
       Json.obj [(("num"), Json.str ("1.1.0"))],
       Json.obj [(("num"), Json.str ("1.0.0"))]])]).getField ("versions")).asArray = some arr ∧
      ∀ s ∈ (["1.7.0", "1.5.0", "1.4.0", "1.3.0", "1.2.0"] : List String),
        ∃ v ∈ arr, (v.getField ("num")).asStr = some s ∧
          v.getField ("yanked") ≠ Json.bool true :=
  ⟨rfl, C6_cap_and_no_yanked _ _ rfl⟩

/-- C10: when the response has a versions array, the kept entries are
exactly those with a string-valued num field whose yanked field is not the
boolean true — an absent or non-boolean yanked field counts as not
withdrawn and the entry is included, and an entry without a string num is
silently skipped rather than an error — in array order, capped at 5. -/
theorem C10_filter_semantics (resp : Json) (arr : List Json)
    (h : (resp.getField ("versions")).asArray = some arr) :
    get_candidate_versions resp = some ((arr.filterMap keepVersion).take MAX_ROLLBACKS) ∧
    ∀ v s, keepVersion v = some s ↔
      ((v.getField ("num")).asStr = some s ∧ v.getField ("yanked") ≠ Json.bool true) := by
  refine ⟨?_, fun v s => keepVersion_eq_some_iff v s⟩
  unfold get_candidate_versions
  rw [h]

/-- C10 witness: the theorem applied to a concrete response exercising all
three entry shapes (yanked true dropped, yanked absent or non-boolean
kept, non-string num skipped). -/
theorem C10_filter_semantics_witness :
    (get_candidate_versions (Json.obj [(("versions"), Json.arr
      [Json.obj [(("num"), Json.str ("1.0.0"))],
       Json.obj [(("num"), Json.str ("0.9.0")), (("yanked"), Json.bool true)],
       Json.obj [(("num"), Json.num 3)],
       Json.obj [(("num"), Json.str ("0.8.0")), (("yanked"), Json.str ("x"))]])]) =
      some (([Json.obj [(("num"), Json.str ("1.0.0"))],
       Json.obj [(("num"), Json.str ("0.9.0")), (("yanked"), Json.bool true)],
       Json.obj [(("num"), Json.num 3)],
       Json.obj [(("num"), Json.str ("0.8.0")), (("yanked"), Json.str ("x"))]].filterMap
          keepVersion).take MAX_ROLLBACKS) ∧
    ∀ v s, keepVersion v = some s ↔
      ((v.getField ("num")).asStr = some s ∧ v.getField ("yanked") ≠ Json.bool true)) ∧
    ([Json.obj [(("num"), Json.str ("1.0.0"))],
      Json.obj [(("num"), Json.str ("0.9.0")), (("yanked"), Json.bool true)],
      Json.obj [(("num"), Json.num 3)],
      Json.obj [(("num"), Json.str ("0.8.0")), (("yanked"), Json.str ("x"))]].filterMap
        keepVersion).take MAX_ROLLBACKS = ["1.0.0", "0.8.0"] :=
  ⟨C10_filter_semantics _ _ rfl, rfl⟩

/-- C5: for a package classified Missing all of whose fetched version
strings parse as semantic versions, the ordering step returns a
permutation of the candidates sorted descending by semver precedence (the
comparator of the semver crate, `semverGe`), so the first version tried is
a maximum among the fetched candidates; for a package not classified
Missing (a Conflict package) the registry list is returned unchanged. -/
theorem C5_missing_reorder (missing : List String) (name : String) (vs : List String)
    (hall : vs.all (fun v => (parseVersion v).isSome) = true) :
    (name ∈ missing →
      ∃ sorted, orderCandidates missing name vs = some sorted ∧
        sorted.Perm vs ∧
        List.Pairwise (fun a b => semverGe a b = true) sorted ∧
        ∀ h t, sorted = h :: t → ∀ v ∈ vs, semverGe h v = true) ∧
    (name ∉ missing → orderCandidates missing name vs = some vs) := by
  constructor
  · intro hmem
    have hcont : missing.contains name = true := by
      simpa using hmem
    obtain ⟨hsort, hperm, hpair⟩ := sortVersionsDesc_spec vs hall
    refine ⟨_, ?_, hperm, hpair, ?_⟩
    · unfold orderCandidates
      rw [hcont]
      exact hsort
    · intro h t hcons v hv
      have hv2 : v ∈ List.insertionSort (fun a b => semverGe a b = true) vs :=
        hperm.symm.subset hv
      rw [hcons] at hv2 hpair
      rcases List.mem_cons.mp hv2 with rfl | hv3
      · exact semverGe_refl v
      · exact List.rel_of_pairwise_cons hpair hv3
  · intro hmem
    have hcont : missing.contains name = false := by
      simpa using hmem
    unfold orderCandidates
    rw [hcont]
    simp

/-- C5 witness: the theorem applied to the missing crate "foo" with
candidates in registry order ["1.0.0", "2.0.0"], and to the non-missing
crate "bar" whose order is preserved. -/
theorem C5_missing_reorder_witness :
    (∃ sorted, orderCandidates [("foo")] ("foo") ["1.0.0", "2.0.0"] = some sorted ∧
      sorted.Perm ["1.0.0", "2.0.0"] ∧
      List.Pairwise (fun a b => semverGe a b = true) sorted ∧
      ∀ h t, sorted = h :: t → ∀ v ∈ ["1.0.0", "2.0.0"], semverGe h v = true) ∧
    orderCandidates [("foo")] ("bar") ["1.0.0", "2.0.0"] = some ["1.0.0", "2.0.0"] :=
  ⟨(C5_missing_reorder [("foo")] ("foo") ["1.0.0", "2.0.0"] (by decide)).1 (by decide),
   (C5_missing_reorder [("foo")] ("bar") ["1.0.0", "2.0.0"] (by decide)).2 (by decide)⟩

/-- C2: in every run the authoritative manifest is written at most once,
and an authoritative write only ever happens as the final event,
immediately after a trial build of the identical name-to-version
assignment succeeded, written with the very document that was
trial-built, and the run then ends Ok with that assignment.  On every
other path — initial-build success, unparseable diagnostics, fetch
failures, failed or erroring trials, exhaustion — the trace contains no
authoritative write. -/
theorem C2_manifest_write_once (w : World) (tr : List Event)
    (res : Except RunErr Outcome) (hrun : runMain w = (tr, res)) :
    countAuthWrites tr ≤ 1 ∧
    ∀ d c, Event.authWrite d c ∈ tr →
      ∃ pre, tr = pre ++ [.trialWrite d, .trialBuild c true, .authWrite d c] ∧
        res = .ok (.fixed c) := by
  cases hio : w.initialBuildOk with
  | true =>
      have heq : runMain w = ([], .ok .initialOk) := by
        simp [runMain, hio]
      rw [heq] at hrun
      injection hrun with h1 h2
      subst h1
      subst h2
      refine ⟨by simp [countAuthWrites], ?_⟩
      intro d c h
      simp at h
  | false =>
      cases hpe : (problemCrates w.stderr).isEmpty with
      | true =>
          have heq : runMain w = ([], .ok .noParseable) := by
            simp [runMain, hio, hpe]
          rw [heq] at hrun
          injection hrun with h1 h2
          subst h1
          subst h2
          refine ⟨by simp [countAuthWrites], ?_⟩
          intro d c h
          simp at h
      | false =>
          cases hfl : fetchLoop w (parse_missing_crates w.stderr) (problemCrates w.stderr) []
            with
          | mk evs fres =>
              have hevs : ∀ e ∈ evs, ∃ n, e = Event.fetch n := by
                have h2 := fetchLoop_events w (parse_missing_crates w.stderr)
                  (problemCrates w.stderr) []
                rw [hfl] at h2
                exact h2
              cases fres with
              | error e =>
                  have heq : runMain w = (evs, .error e) := by
                    simp [runMain, hio, hpe, hfl]
                  rw [heq] at hrun
                  injection hrun with h1 h2
                  subst h1
                  subst h2
                  refine ⟨by simp [countAuth_of_fetches evs hevs], ?_⟩
                  intro d c h
                  obtain ⟨n, heq2⟩ := hevs _ h
                  simp at heq2
              | ok cmap =>
                  cases hgc : generate_combinations cmap with
                  | none =>
                      have heq : runMain w = (evs, .error (.panic ("index out of bounds"))) := by
                        simp [runMain, hio, hpe, hfl, hgc]
                      rw [heq] at hrun
                      injection hrun with h1 h2
                      subst h1
                      subst h2
                      refine ⟨by simp [countAuth_of_fetches evs hevs], ?_⟩
                      intro d c h
                      obtain ⟨n, heq2⟩ := hevs _ h
                      simp at heq2
                  | some combos =>
                      have heq : runMain w =
                          (evs ++ (trialLoop w combos 0).1, (trialLoop w combos 0).2) := by
                        simp [runMain, hio, hpe, hfl, hgc]
                      rw [heq] at hrun
                      injection hrun with h1 h2
                      subst h1
                      subst h2
                      obtain ⟨hc1, hc2⟩ := trialLoop_spec w combos 0
                      constructor
                      · rw [countAuth_append, countAuth_of_fetches evs hevs]
                        simpa using hc1
                      · intro d c h
                        rcases List.mem_append.mp h with h | h
                        · obtain ⟨n, heq2⟩ := hevs _ h
                          simp at heq2
                        · obtain ⟨pre, hpre, hres⟩ := hc2 d c h
                          refine ⟨evs ++ pre, ?_, hres⟩
                          rw [hpre, List.append_assoc]

/-- Concrete world for the C2 witness: one conflict crate, a registry
returning one version, the first trial build succeeding. -/
def w2 : World :=
  ⟨false, "failed to select a version for `foo`",
    fun _ => .ok (Json.obj [(("versions"),
      Json.arr [Json.obj [(("num"), Json.str ("1.0.0"))]])]),
    .ok (""), fun _ => .ok ⟨[], ("")⟩, fun _ => .ok true⟩

/-- C2 witness: on the concrete world the trace does contain an
authoritative write, and the theorem applied there gives the count bound
and the mandatory success-suffix shape. -/
theorem C2_manifest_write_once_witness :
    countAuthWrites (runMain w2).1 ≤ 1 ∧
    (∃ pre, (runMain w2).1 = pre ++
        [.trialWrite ⟨[(("foo"), ("1.0.0"))], ("")⟩,
         .trialBuild [(("foo"), ("1.0.0"))] true,
         .authWrite ⟨[(("foo"), ("1.0.0"))], ("")⟩ [(("foo"), ("1.0.0"))]] ∧
      (runMain w2).2 = .ok (.fixed [(("foo"), ("1.0.0"))])) :=
  ⟨(C2_manifest_write_once w2 (runMain w2).1 (runMain w2).2 rfl).1,
   (C2_manifest_write_once w2 (runMain w2).1 (runMain w2).2 rfl).2
     ⟨[(("foo"), ("1.0.0"))], ("")⟩ [(("foo"), ("1.0.0"))] (by decide)⟩

/-- C8: when the initial build fails and the diagnostic text matches no
known pattern — both parsed sets empty — the run terminates immediately
with the informational no-parseable-issue outcome and a successful (Ok)
exit, and the trace is empty: zero registry fetches, zero trial builds,
and no manifest writes of either kind. -/
theorem C8_no_parseable_fast_exit (w : World)
    (hinit : w.initialBuildOk = false)
    (hc : parse_conflicts w.stderr = [])
    (hm : parse_missing_crates w.stderr = []) :
    runMain w = ([], .ok .noParseable) := by
  simp [runMain, hinit, problemCrates, hc, hm]

/-- C8 witness: a concrete failed build whose stderr matches no pattern. -/
theorem C8_no_parseable_fast_exit_witness :
    runMain ⟨false, "error: expected one of `!` or `::`", fun _ => .error ("no network"),
      .ok (""), fun _ => .ok ⟨[], ("")⟩, fun _ => .ok false⟩ = ([], .ok .noParseable) :=
  C8_no_parseable_fast_exit _ rfl (by decide) (by decide)

/-- Concrete world for C3: the diagnostic matches both the conflict and
the missing pattern for "foo"; the registry returns the versions in native
order oldest-first. -/
def w3 : World :=
  ⟨false, "failed to select a version for `foo` and could not find `foo` in registry",
    fun _ => .ok (Json.obj [(("versions"), Json.arr
      [Json.obj [(("num"), Json.str ("1.0.0"))],
       Json.obj [(("num"), Json.str ("2.0.0"))]])]),
    .ok (""), fun _ => .ok ⟨[], ("")⟩, fun _ => .ok false⟩

/-- C3 counterexample: with "foo" matching both patterns, the merged
working set contains "foo" twice (no deduplication happens), and although
the registry returned ["1.0.0", "2.0.0"] in native order, the candidate
list produced for "foo" is the Missing newest-first reorder
["2.0.0", "1.0.0"] — Missing, not Conflict, takes precedence. -/
theorem C3_counterexample_no_dedup :
    problemCrates
        ("failed to select a version for `foo` and could not find `foo` in registry") =
      [("foo"), ("foo")] ∧
    get_candidate_versions (Json.obj [(("versions"), Json.arr
      [Json.obj [(("num"), Json.str ("1.0.0"))],
       Json.obj [(("num"), Json.str ("2.0.0"))]])]) = some ["1.0.0", "2.0.0"] ∧
    fetchOne w3 (parse_missing_crates
        ("failed to select a version for `foo` and could not find `foo` in registry"))
        ("foo") = .ok ["2.0.0", "1.0.0"] := by
  exact ⟨by decide, rfl, rfl⟩

/-- C3 (amended): the working set is the plain concatenation of the
conflict and missing parse results, so a name matched by both patterns
appears in it more than once and is fetched once per occurrence; the
candidates map deduplicates only by key overwriting, and the ordering
applied to a crate depends solely on membership in the missing set, so a
name matched by both a conflict and a missing pattern receives the Missing
newest-first reordering rather than keeping the registry native order
(Missing, not Conflict, takes precedence). -/
theorem C3_merge_missing_precedence (st : String) (name : String)
    (hc : name ∈ parse_conflicts st) (hm : name ∈ parse_missing_crates st)
    (w : World) (j : Json) (versions : List String)
    (hr : w.registry name = .ok j) (hg : get_candidate_versions j = some versions)
    (hall : versions.all (fun v => (parseVersion v).isSome) = true) :
    1 < (problemCrates st).count name ∧
    fetchOne w (parse_missing_crates st) name =
      .ok (List.insertionSort (fun a b => semverGe a b = true) versions) := by
  constructor
  · unfold problemCrates
    rw [List.count_append]
    have h1 : 0 < (parse_conflicts st).count name := List.count_pos_iff.mpr hc
    have h2 : 0 < (parse_missing_crates st).count name := List.count_pos_iff.mpr hm
    omega
  · have hcont : (parse_missing_crates st).contains name = true := by
      simpa using hm
    have hoc : orderCandidates (parse_missing_crates st) name versions =
        some (List.insertionSort (fun a b => semverGe a b = true) versions) := by
      unfold orderCandidates
      rw [hcont]
      simp only [reduceIte]
      unfold sortVersionsDesc
      rw [if_pos hall]
    simp [fetchOne, hr, hg, hoc]

/-- C3 witness: the amended theorem applied to the concrete world. -/
theorem C3_merge_missing_precedence_witness :
    1 < (problemCrates
        ("failed to select a version for `foo` and could not find `foo` in registry")).count
        ("foo") ∧
    fetchOne w3 (parse_missing_crates
        ("failed to select a version for `foo` and could not find `foo` in registry"))
        ("foo") =
      .ok (List.insertionSort (fun a b => semverGe a b = true) ["1.0.0", "2.0.0"]) :=
  C3_merge_missing_precedence _ ("foo") (by decide) (by decide) w3 _ ["1.0.0", "2.0.0"]
    rfl rfl (by decide)

/-- Discriminator: is the run result a propagated error value (as opposed
to a panic or a normal outcome)? -/
def isPropagatedErr : Except RunErr Outcome → Bool
  | .error (.err _) => true
  | _ => false

/-- Concrete world for C7 part one: the registry body for the single
problem crate has no versions array. -/
def w7a : World :=
  ⟨false, "failed to select a version for `foo`",
    fun _ => .ok (Json.obj [(("ok"), Json.bool true)]),
    .ok (""), fun _ => .ok ⟨[], ("")⟩, fun _ => .ok false⟩

/-- Concrete world for C7 part two: two Missing crates; the fetch of the
first succeeds, and the fetched list of the second contains a string that
is not a semantic version. -/
def w7b : World :=
  ⟨false, "could not find `okcrate` in registry could not find `badcrate` in registry",
    fun name =>
      if name = "okcrate" then
        .ok (Json.obj [(("versions"), Json.arr [Json.obj [(("num"), Json.str ("1.0.0"))]])])
      else
        .ok (Json.obj [(("versions"), Json.arr
          [Json.obj [(("num"), Json.str ("not-a-version"))],
           Json.obj [(("num"), Json.str ("1.0.0"))]])]),
    .ok (""), fun _ => .ok ⟨[], ("")⟩, fun _ => .ok false⟩

/-- C7 counterexample: on both failure conditions named by the claim the
run aborts with a panic (an unchecked `unwrap`), not with an error result
surfaced to the caller: the result is a `panic`, and the
propagated-error discriminator is false. -/
theorem C7_counterexample_panic_not_error :
    (runMain w7a).2 = .error (.panic ("called Option::unwrap on a None value")) ∧
    isPropagatedErr (runMain w7a).2 = false ∧
    (runMain w7b).2 = .error (.panic ("Version::parse failed in sort comparator")) ∧
    isPropagatedErr (runMain w7b).2 = false := by
  exact ⟨rfl, rfl, rfl, rfl⟩

/-- When the fetches of a prefix of the problem crates all succeed, the
fetch loop emits one fetch event per prefix crate and continues on the
remaining crates with some accumulated candidates map. -/
theorem fetchLoop_ok_prefix (w : World) (missing : List String) :
    ∀ (pre : List String) (acc : List (String × List String)),
      (∀ m ∈ pre, ∃ vs, fetchOne w missing m = .ok vs) →
      ∀ tail, ∃ acc2,
        fetchLoop w missing (pre ++ tail) acc =
          (pre.map Event.fetch ++ (fetchLoop w missing tail acc2).1,
            (fetchLoop w missing tail acc2).2) := by
  intro pre
  induction pre with
  | nil =>
      intro acc _ tail
      exact ⟨acc, by simp⟩
  | cons m pre2 ih =>
      intro acc hok tail
      obtain ⟨vs, hvs⟩ := hok m (by simp)
      obtain ⟨acc2, hrec⟩ := ih (insertMap acc m vs) (fun x hx => hok x (by simp [hx])) tail
      refine ⟨acc2, ?_⟩
      have hstep : fetchLoop w missing ((m :: pre2) ++ tail) acc =
          (.fetch m :: (fetchLoop w missing (pre2 ++ tail) (insertMap acc m vs)).1,
            (fetchLoop w missing (pre2 ++ tail) (insertMap acc m vs)).2) := by
        simp only [List.cons_append]
        conv_lhs => unfold fetchLoop
        rw [hvs]
      rw [hstep, hrec]
      simp

/-- C7 (amended): a registry response without a versions array, and — for
a crate classified Missing — a fetched candidate list of two or more
versions containing a string that does not parse as a semantic version,
each abort the entire run immediately when the fetch loop reaches that
crate (all earlier fetches having succeeded), wherever it sits in the
problem list: the trace ends at that fetch, with no retry, no fallback,
no further fetches, no trial builds and no manifest writes — but the
abort is a panic from an unchecked `unwrap`, not an error result returned
to the caller. -/
theorem C7_hard_abort (w : World) (pre : List String) (n : String) (rest : List String)
    (j : Json)
    (hinit : w.initialBuildOk = false)
    (hp : problemCrates w.stderr = pre ++ n :: rest)
    (hok : ∀ m ∈ pre, ∃ vs, fetchOne w (parse_missing_crates w.stderr) m = .ok vs)
    (hr : w.registry n = .ok j) :
    ((j.getField ("versions")).asArray = none →
      ∃ msg, runMain w = (pre.map Event.fetch ++ [.fetch n], .error (.panic msg))) ∧
    (∀ versions, get_candidate_versions j = some versions →
      n ∈ parse_missing_crates w.stderr →
      2 ≤ versions.length →
      (∃ v ∈ versions, parseVersion v = none) →
      ∃ msg, runMain w = (pre.map Event.fetch ++ [.fetch n], .error (.panic msg))) := by
  have hne : (pre ++ n :: rest).isEmpty = false := by simp
  constructor
  · intro harr
    have hgc : get_candidate_versions j = none := by
      unfold get_candidate_versions
      rw [harr]
    have hfo : fetchOne w (parse_missing_crates w.stderr) n =
        .error (.panic ("called Option::unwrap on a None value")) := by
      simp [fetchOne, hr, hgc]
    obtain ⟨acc2, hpref⟩ := fetchLoop_ok_prefix w (parse_missing_crates w.stderr) pre []
      hok (n :: rest)
    have htail : fetchLoop w (parse_missing_crates w.stderr) (n :: rest) acc2 =
        ([.fetch n], .error (.panic ("called Option::unwrap on a None value"))) := by
      unfold fetchLoop
      rw [hfo]
    have hfl : fetchLoop w (parse_missing_crates w.stderr) (pre ++ n :: rest) [] =
        (pre.map Event.fetch ++ [.fetch n],
          .error (.panic ("called Option::unwrap on a None value"))) := by
      rw [hpref, htail]
    refine ⟨("called Option::unwrap on a None value"), ?_⟩
    simp [runMain, hinit, hp, hne, hfl]
  · intro versions hgv hm hlen ⟨v, hv, hnone⟩
    have hallf : versions.all (fun v => (parseVersion v).isSome) = false := by
      cases hq : versions.all (fun v => (parseVersion v).isSome) with
      | false => rfl
      | true =>
          have := List.all_eq_true.mp hq v hv
          rw [hnone] at this
          simp at this
    have hcont : (parse_missing_crates w.stderr).contains n = true := by
      simpa using hm
    have hsd : sortVersionsDesc versions = none := by
      unfold sortVersionsDesc
      rw [hallf]
      simp only [Bool.false_eq_true, reduceIte]
      rw [if_neg (by omega)]
    have hoc : orderCandidates (parse_missing_crates w.stderr) n versions = none := by
      unfold orderCandidates
      rw [hcont]
      simp only [reduceIte]
      exact hsd
    have hfo : fetchOne w (parse_missing_crates w.stderr) n =
        .error (.panic ("Version::parse failed in sort comparator")) := by
      simp [fetchOne, hr, hgv, hoc]
    obtain ⟨acc2, hpref⟩ := fetchLoop_ok_prefix w (parse_missing_crates w.stderr) pre []
      hok (n :: rest)
    have htail : fetchLoop w (parse_missing_crates w.stderr) (n :: rest) acc2 =
        ([.fetch n], .error (.panic ("Version::parse failed in sort comparator"))) := by
      unfold fetchLoop
      rw [hfo]
    have hfl : fetchLoop w (parse_missing_crates w.stderr) (pre ++ n :: rest) [] =
        (pre.map Event.fetch ++ [.fetch n],
          .error (.panic ("Version::parse failed in sort comparator"))) := by
      rw [hpref, htail]
    refine ⟨("Version::parse failed in sort comparator"), ?_⟩
    simp [runMain, hinit, hp, hne, hfl]

/-- C7 witness: part one applied at the single problem crate of w7a; part
two applied at the second problem crate of w7b, after the successful fetch
of the first. -/
theorem C7_hard_abort_witness :
    (∃ msg, runMain w7a = ([.fetch ("foo")], .error (.panic msg))) ∧
    (∃ msg, runMain w7b =
      ([.fetch ("okcrate"), .fetch ("badcrate")], .error (.panic msg))) :=
  ⟨(C7_hard_abort w7a [] ("foo") [] (Json.obj [(("ok"), Json.bool true)])
      rfl (by decide) (by intro m hm; cases hm) rfl).1 rfl,
   (C7_hard_abort w7b [("okcrate")] ("badcrate") []
      (Json.obj [(("versions"), Json.arr
        [Json.obj [(("num"), Json.str ("not-a-version"))],
         Json.obj [(("num"), Json.str ("1.0.0"))]])])
      rfl (by decide)
      (by
        intro m hm
        simp only [List.mem_singleton] at hm
        subst hm
        exact ⟨["1.0.0"], rfl⟩)
      rfl).2 ["not-a-version", "1.0.0"] rfl (by decide) (by decide)
      ⟨("not-a-version"), by decide, rfl⟩⟩
